import Mathlib

/-!
Verification development for the gdb_trace recorder/replayer.

Python strings are modelled as `List Char` (`Str`), machine integers as
`Nat`/`Int`, floats as `ℝ` (exact real arithmetic), and the external
debugger as an explicit oracle of stop events consumed by the
interpreters.  Each definition is a shallow embedding of the
corresponding function in the repository sources
(`position.py`, `tracer.py`, `converter.py`).
-/

namespace GdbTrace

/-- Python `str` values are modelled as lists of characters. -/
abbrev Str := List Char

/-- Python lexicographic string comparison `a < b` (by code points). -/
def strLt : Str → Str → Bool
  | [], [] => false
  | [], _ :: _ => true
  | _ :: _, [] => false
  | a :: as, b :: bs => decide (a < b) || (decide (a = b) && strLt as bs)

/-- `position.FileLine`: a breakable source point.  Equality and ordering in
the Python code use only `(filename, line)`; `address` is metadata. -/
structure FileLine where
  filename : Str
  line : ℕ
  address : ℕ
  deriving DecidableEq

/-- Python `FileLine.__eq__`: compares `(filename, line)` only. -/
def fleq (a b : FileLine) : Bool :=
  decide (a.filename = b.filename) && decide (a.line = b.line)

/-- Python `FileLine.__lt__`: lexicographic on `(filename, line)`. -/
def flt (a b : FileLine) : Bool :=
  if a.filename = b.filename then decide (a.line < b.line)
  else strLt a.filename b.filename

/-- Python `==` on `Optional[FileLine]` values (`None == None` is `True`,
`None == FileLine(...)` is `False`). -/
def optFLeq : Option FileLine → Option FileLine → Bool
  | none, none => true
  | some a, some b => fleq a b
  | _, _ => false

/-- `position.path_rel_to` for a path that lies under `base`: strips the
`base ++ "/"` prefix.  (Python uses `pathlib.Path.relative_to`; theorems that
rely on this carry the hypothesis that the argument really has that prefix.) -/
def pathRelTo (f base : Str) : Str := f.drop (base.length + 1)

/-- `os.path.abspath (os.path.join base f)` for a relative `f` and a
normalized absolute `base`: concatenation with a path separator. -/
def pathJoin (base f : Str) : Str := base ++ '/' :: f

/-- `FileLine.relative_to`. -/
def FileLine.relativeTo (fl : FileLine) (base : Str) : FileLine :=
  ⟨pathRelTo fl.filename base, fl.line, fl.address⟩

/-- `position.LineLoc`: where within a source line a thread stopped. -/
inductive LineLoc
  | Before
  | Middle
  | After
  deriving DecidableEq

/-- The wire character of a `LineLoc` (its Python enum value). -/
def locChar : LineLoc → Char
  | .Before => '='
  | .Middle => '>'
  | .After => '-'

/-- `position.ThreadPos`: `(tid, line_loc, file_line | none)`. -/
structure ThreadPos where
  tid : ℕ
  lineLoc : LineLoc
  fileLine : Option FileLine
  deriving DecidableEq

/-- Fuel-based helper for `natRepr` (structural recursion so that closed
instances evaluate inside the kernel). -/
def natReprAux : ℕ → ℕ → Str
  | 0, _ => []
  | fuel + 1, n =>
    if n < 10 then [Char.ofNat (48 + n)]
    else natReprAux fuel (n / 10) ++ [Char.ofNat (48 + n % 10)]

/-- Decimal representation of a natural number ("%d"). -/
def natRepr (n : ℕ) : Str := natReprAux (n + 1) n

/-- `FileLine.__str__`: `"<filename>:<line>"`. -/
def fileLineStr (fl : FileLine) : Str := fl.filename ++ ':' :: natRepr fl.line

/-- `ThreadPos.__str__`: `"<tid> <'='|'>'|'-'> <file_line or None>"`. -/
def threadPosStr (t : ThreadPos) : Str :=
  natRepr t.tid ++ ' ' :: locChar t.lineLoc :: ' ' ::
    (match t.fileLine with
     | none => "None".toList
     | some f => fileLineStr f)

/-- Python `int()` on a digit string: decimal value. -/
def natOfDigits (l : Str) : ℕ := l.foldl (fun a c => 10 * a + (c.toNat - 48)) 0

/-- Backtracking for the `(.*):(\d+)` branch of `log_pattern`.  Returns the
split at the rightmost `':'` that is immediately followed by a digit and whose
prefix contains no newline (`.` does not match `'\n'`; `.*` is greedy), giving
`(prefix, digit-run after the colon)`. -/
def matchTail : Str → Option (Str × Str)
  | [] => none
  | c :: rest =>
    match matchTail rest with
    | some (a, ds) => if c = '\n' then none else some (c :: a, ds)
    | none =>
      if c = ':' then
        let ds := rest.takeWhile Char.isDigit
        if ds.isEmpty then none else some ([], ds)
      else none

/-- The `(None|(.*):(\d+))` group of `log_pattern`.  The alternation tries the
literal `None` first; since the pattern may match a prefix of the line
(`re.match`), a position part that merely starts with `None` already takes the
first branch. -/
def parsePosPart (l : Str) : Option (Option FileLine) :=
  if "None".toList.isPrefixOf l then some none
  else
    match matchTail l with
    | some (a, ds) => some (some ⟨a, natOfDigits ds, 0⟩)
    | none => none

/-- `position.parse_log_line`: match the line against
`(\d+) ([=>]) (None|(.*):(\d+))\s*` (anchored at the start only; trailing
characters are permitted because `re.match` does not require a full match). -/
def parseLogChars (l : Str) : Option ThreadPos :=
  let ds := l.takeWhile Char.isDigit
  if ds.isEmpty then none
  else
    match l.drop ds.length with
    | ' ' :: c :: ' ' :: rest =>
      if c = '=' then (parsePosPart rest).map (fun fl => ⟨natOfDigits ds, LineLoc.Before, fl⟩)
      else if c = '>' then (parsePosPart rest).map (fun fl => ⟨natOfDigits ds, LineLoc.Middle, fl⟩)
      else none
    | _ => none

/-- Python `str.strip()`: remove whitespace from both ends. -/
def stripChars (l : Str) : Str :=
  ((l.dropWhile Char.isWhitespace).reverse.dropWhile Char.isWhitespace).reverse

/-- `converter.read_log`: strip each line, parse it, and silently skip the
lines `parse_log_line` rejects. -/
def readLog (lines : List Str) : List ThreadPos :=
  lines.filterMap (fun l => parseLogChars (stripChars l))

/-! ## Line table lookup (`Converter.break_position`) -/

/-- `bisect.bisect_left` on a list sorted by `flt`: the number of leading
elements strictly below the key (the leftmost insertion point, which is what
the binary search computes on a sorted list). -/
def bisectLeft (l : List FileLine) (x : FileLine) : ℕ :=
  (l.takeWhile (fun a => flt a x)).length

/-- `Converter.break_position`: rebase the key onto `srcdir`, find the
smallest line-table entry `≥` the key, and return it relative to `srcdir`
(`None` when the key is past the end of the table). -/
def breakPosition (positions : List FileLine) (srcdir : Str) :
    Option FileLine → Option FileLine
  | none => none
  | some f =>
    let x : FileLine := ⟨pathJoin srcdir f.filename, f.line, 0⟩
    match positions.get? (bisectLeft positions x) with
    | none => none
    | some ans => some (ans.relativeTo srcdir)

/-! ## `tracer.PosCount` and the loop detector -/

/-- Python dict lookup (`data.get(loc)`); assoc list with unique keys. -/
def dictGet : List (Str × ℕ) → Str → Option ℕ
  | [], _ => none
  | p :: d, k => if p.1 = k then some p.2 else dictGet d k

/-- Python dict assignment `data[k] = v`: replace in place, else append. -/
def dictSet : List (Str × ℕ) → Str → ℕ → List (Str × ℕ)
  | [], k, v => [(k, v)]
  | p :: d, k, v => if p.1 = k then (k, v) :: d else p :: dictSet d k v

/-- Python `del data[k]`. -/
def dictDel : List (Str × ℕ) → Str → List (Str × ℕ)
  | [], _ => []
  | p :: d, k => if p.1 = k then d else p :: dictDel d k

/-- The multiplicity stored for a key (0 when absent). -/
def dictCount (d : List (Str × ℕ)) (k : Str) : ℕ := (dictGet d k).getD 0

/-- `PosCount.RecentCnt`. -/
def recentCnt : ℕ := 1000

/-- `tracer.PosCount`: insertion-ordered multiset (`data`), the append-only
log of every added string (`log`, never truncated), and the window size
counter (`num`). -/
structure PosCount where
  data : List (Str × ℕ)
  log : List Str
  num : ℕ
  deriving DecidableEq

/-- A fresh `PosCount` (its `__init__`). -/
def PosCount.init : PosCount := ⟨[], [], 0⟩

/-- `PosCount._remove`: decrement a key's count, deleting it at 1, and
decrement `num`.  (Python raises `KeyError` on an absent key; the invariant
proved below shows the key is always present when `_remove` is reached.) -/
def posRemove (st : PosCount) (loc : Str) : PosCount :=
  let v := dictCount st.data loc
  { st with
    data := if v = 1 then dictDel st.data loc else dictSet st.data loc (v - 1)
    num := st.num - 1 }

/-- `PosCount.add_new`: count the string, append it to the log, bump `num`,
and once `num` exceeds `RecentCnt` evict `log[-num]` (an index into the full,
never-truncated log). -/
def addNew (loc : Str) (st : PosCount) : PosCount :=
  let v := dictCount st.data loc
  let st1 : PosCount := ⟨dictSet st.data loc (v + 1), st.log ++ [loc], st.num + 1⟩
  if st1.num > recentCnt then posRemove st1 (st1.log.getD (st1.log.length - st1.num) [])
  else st1

/-- `PosCount.clear_counter`: clears `data` and `num` but NOT `log`. -/
def clearCounter (st : PosCount) : PosCount := { st with data := [], num := 0 }

/-- The operations a `PosCount` sees over its lifetime. -/
inductive PosOp
  | add (s : Str)
  | clear
  deriving DecidableEq

/-- Apply one operation. -/
def applyPosOp (st : PosCount) : PosOp → PosCount
  | .add s => addNew s st
  | .clear => clearCounter st

/-- Run a sequence of operations from a fresh `PosCount`. -/
def runPosOps (ops : List PosOp) : PosCount := ops.foldl applyPosOp PosCount.init

/-- All strings ever added (in order), across clears. -/
def allAdds (ops : List PosOp) : List Str :=
  ops.filterMap (fun op => match op with | .add s => some s | .clear => none)

/-- The strings added since the most recent clear (in order). -/
def sinceClear (ops : List PosOp) : List Str :=
  ops.foldl (fun acc op => match op with | .add s => acc ++ [s] | .clear => []) []

/-- The sliding window: the most recent `recentCnt` strings since the last
clear. -/
def posWindow (ops : List PosOp) : List Str :=
  (sinceClear ops).drop ((sinceClear ops).length - recentCnt)

/-- `Tracer.LoopTheshold` (the source's own spelling). -/
def loopTheshold : ℕ := 20

/-- The Shannon-entropy statistic of `Tracer.detect_loop`:
`Σ -p log p` over the window multiplicities (`data.values()`), with
`p = count / num`.  Floats are modelled by `ℝ`. -/
noncomputable def entropy (pc : PosCount) : ℝ :=
  ((pc.data.map Prod.snd).map
    (fun v : ℕ => -((v : ℝ) / (pc.num : ℝ)) * Real.log ((v : ℝ) / (pc.num : ℝ)))).sum

/-- `Tracer.detect_loop` as a relation on (result, updated window), mirroring
the source's control flow: fewer than 100 samples → `False`, window
unchanged; entropy above `log LoopTheshold` → `False`, window unchanged;
otherwise → `True` and the window is cleared in the same call. -/
def DetectLoop (pc : PosCount) (b : Bool) (pc2 : PosCount) : Prop :=
  (pc.num < 100 ∧ b = false ∧ pc2 = pc) ∨
  (¬pc.num < 100 ∧ entropy pc > Real.log (loopTheshold : ℝ) ∧ b = false ∧ pc2 = pc) ∨
  (¬pc.num < 100 ∧ ¬entropy pc > Real.log (loopTheshold : ℝ) ∧ b = true ∧
    pc2 = clearCounter pc)

/-! ## Tracer scheduling (`ThreadInfo`, `Tracer.step`, `Tracer.try_step`) -/

/-- `tracer.Position` (from `position.py`): a resolved thread location. -/
structure Position where
  fileLine : Option FileLine
  pc : ℕ
  deriving DecidableEq

/-- `Position.at_line_begin`. -/
def Position.atLineBegin (p : Position) : Bool :=
  match p.fileLine with
  | none => false
  | some f => decide (p.pc = f.address)

/-- `ThreadInfo.DefaultSchedWeight` (1.0). -/
def defaultSchedWeight : ℚ := 1

/-- `ThreadInfo.DropSchedWeight` (0.1). -/
def dropSchedWeight : ℚ := 1 / 10

/-- The scheduling view of `tracer.ThreadInfo`: its weight and whether the
underlying gdb thread is currently valid. -/
structure SThread where
  weight : ℚ
  valid : Bool
  deriving DecidableEq

/-- `tracer.ThreadInfo.__init__`: every thread starts at the default
scheduling weight. -/
def mkSThread (valid : Bool) : SThread := ⟨defaultSchedWeight, valid⟩

/-- The oracle for one iteration of the `while True` loop in `Tracer.step`:
the liveness answer, the validity of threads appended by
`handle_new_threads`, the index `random_thread` picks, and whether
`try_step` on that thread succeeds. -/
structure SchedTick where
  live : Bool
  newValids : List Bool
  choice : ℕ
  trySucceeds : Bool
  deriving DecidableEq

/-- `Tracer.step`: loop until the inferior dies or a valid thread is chosen;
an invalid choice has its weight set to 0 and the loop repeats; a valid
choice ends the call with the weight reset to the default on success and
multiplied by the drop factor on failure.  `none` means the oracle ran out
(not a terminating run). -/
def stepRun : List SchedTick → List SThread → Option (List SThread × Bool)
  | [], _ => none
  | t :: ts, threads =>
    if t.live = false then some (threads, false)
    else
      let threads1 := threads ++ t.newValids.map mkSThread
      match threads1.get? t.choice with
      | none => none
      | some info =>
        if info.valid then
          if t.trySucceeds then
            some (threads1.set t.choice { info with weight := defaultSchedWeight }, true)
          else
            some (threads1.set t.choice { info with weight := info.weight * dropSchedWeight },
              true)
        else stepRun ts (threads1.set t.choice { info with weight := 0 })

/-- Outcome of one `gdb_execute_timeout` call in the Tracer. -/
inductive ExecRes
  | ok
  | timedOut
  | gdbErr
  deriving DecidableEq

/-- Oracle for one command of the follow-on command list in `try_step`'s
inner loop: thread validity before the command, the command's outcome, and
the position `thread_position` would report after a timeout. -/
structure CmdExec where
  valid : Bool
  res : ExecRes
  refreshPos : Position
  deriving DecidableEq

/-- Oracle for one iteration of the `while True` loop in `try_step`. -/
structure LoopTick where
  valid : Bool
  pos : Position
  level : ℕ
  execs : List CmdExec
  deriving DecidableEq

/-- Oracle for a whole `try_step` call: the outcome of the initially chosen
command, the position `thread_position` reports when that command times out,
and the inner-loop events. -/
structure TryOracle where
  first : ExecRes
  firstRefresh : Position
  loop : List LoopTick
  deriving DecidableEq

/-- Result of `try_step`: `done res pos` is a normal return carrying the
thread's stored Position at return time; `crash` is an uncaught `gdb.error`
in the inner loop; `stuck` means the oracle ran out. -/
inductive TryOut
  | done (res : Bool) (finalPos : Position)
  | crash
  | stuck
  deriving DecidableEq

/-- Result of the `for cmd in cmds` loop inside `try_step`. -/
inductive CmdPhase
  | fellThrough
  | retFalse (refreshed : Option Position)
  | crashed
  | stuckHere
  deriving DecidableEq

/-- The `for cmd in cmds` loop of `try_step`: before each command the thread
validity is checked (invalid → return `False` with the position unchanged);
a timeout refreshes the position and returns `False`; a `gdb.error` is NOT
caught here and propagates. -/
def runCmds : ℕ → List CmdExec → CmdPhase
  | 0, _ => .fellThrough
  | _ + 1, [] => .stuckHere
  | n + 1, e :: es =>
    if e.valid = false then .retFalse none
    else
      match e.res with
      | .timedOut => .retFalse (some e.refreshPos)
      | .gdbErr => .crashed
      | .ok => runCmds n es

/-- The `while True` loop of `try_step`, carrying the thread's stored
position (`info.position`). -/
def tryStepLoop (stored : Position) : List LoopTick → TryOut
  | [] => .stuck
  | t :: ts =>
    if t.valid = false then .done false stored
    else
      let pos := t.pos
      if pos.atLineBegin then .done true pos
      else
        let cmdsLen := if pos.fileLine = none then 1 else if 0 < t.level then t.level else 1
        match runCmds cmdsLen t.execs with
        | .fellThrough => tryStepLoop pos ts
        | .retFalse none => .done false pos
        | .retFalse (some p) => .done false p
        | .crashed => .crash
        | .stuckHere => .stuck

/-- `Tracer.try_step` after the command has been chosen: execute it under the
step timeout; a `TimeoutError` refreshes the thread's Position from
`thread_position` and returns `False`; a `gdb.error` returns `False` without
refreshing; success enters the resolve/step-out loop. -/
def tryStep (stored : Position) (o : TryOracle) : TryOut :=
  match o.first with
  | .timedOut => .done false o.firstRefresh
  | .gdbErr => .done false stored
  | .ok => tryStepLoop stored o.loop

/-! ## Replayer (`converter.py`) -/

/-- `converter.RunResult`. -/
inductive RunResult
  | success
  | timeout
  | clone
  | exit
  | error
  deriving DecidableEq

/-- Oracle for one `run_gdb_cmd` call: the classified result, and the data
`thread_position`/`read_reg` would report after the stop (`pos` is the
absolute `FileLine`, `pc` the program counter, `level` the frame depth). -/
structure Stop where
  res : RunResult
  pos : Option FileLine
  pc : ℤ
  level : ℕ
  deriving DecidableEq

/-- Observable actions of the Replayer: breakpoint creation/deletion and
`append_answer` emissions (one PC-log line each; `append_answer None`
writes the `0x0` sentinel). -/
inductive Act
  | createBp
  | deleteBp
  | emit (v : ℤ)
  deriving DecidableEq

/-- The PC-log lines among a list of actions. -/
def emits (acts : List Act) : List ℤ :=
  acts.filterMap (fun a => match a with | .emit v => some v | _ => none)

/-- `converter.ThreadInfo` (the Replayer's). -/
structure CInfo where
  current : ThreadPos
  lastFinished : Option FileLine
  lastTarget : Option FileLine
  deriving DecidableEq

/-- `ThreadInfo.move_to`: record `last_finished` from the OLD current
position when `last` is set, then replace `current`. -/
def moveTo (info : CInfo) (newTpos : ThreadPos) (last : Bool) : CInfo :=
  { info with
    lastFinished := if last then info.current.fileLine else none
    current := newTpos }

/-- `ThreadInfo.into_middle`. -/
def intoMiddle (info : CInfo) : CInfo :=
  { info with current := { info.current with lineLoc := LineLoc.Middle } }

/-- The Replayer's fixed context: line table, source dir, load base. -/
structure Ctx where
  positions : List FileLine
  srcdir : Str
  base : ℤ
  deriving DecidableEq

/-- Result of a Replayer primitive: a normal return with the updated
ThreadInfo, the actions performed, and the unconsumed oracle; the fatal
`RuntimeError` raised on a timeout inside `run_until`; an uncaught Python
exception (`AttributeError`/`AssertionError`); or oracle exhaustion. -/
inductive PrimOut
  | ok (info : CInfo) (acts : List Act) (rest : List Stop)
  | fatalT (acts : List Act)
  | crash (acts : List Act)
  | stuck
  deriving DecidableEq

/-- The `while True` loop of `Converter.run_until` (the breakpoint case):
Clone emits `0x0` and continues; Timeout raises; Exit/Error emit `0x0` and
move to `(Middle, none)`; Success emits `pc - base` and moves to `Before`
at the resolved position (crashing if no frame resolved, as
`None.relative_to` would). -/
def runUntilLoop (ctx : Ctx) (info : CInfo) : List Stop → PrimOut
  | [] => .stuck
  | s :: rest =>
    match s.res with
    | .clone =>
      match runUntilLoop ctx info rest with
      | .ok i a r => .ok i (.emit 0 :: a) r
      | .fatalT a => .fatalT (.emit 0 :: a)
      | .crash a => .crash (.emit 0 :: a)
      | .stuck => .stuck
    | .timeout => .fatalT []
    | .exit => .ok (moveTo info ⟨info.current.tid, .Middle, none⟩ false) [.emit 0] rest
    | .error => .ok (moveTo info ⟨info.current.tid, .Middle, none⟩ false) [.emit 0] rest
    | .success =>
      match s.pos with
      | none => .crash [.emit (s.pc - ctx.base)]
      | some af =>
        .ok (moveTo info ⟨info.current.tid, .Before, some (af.relativeTo ctx.srcdir)⟩ true)
          [.emit (s.pc - ctx.base)] rest

/-- `Converter.run_until` with a non-none target: create the temporary
breakpoint, run the loop, and — only when the loop exits by `break` — delete
the breakpoint.  The Timeout `raise` leaves the loop without reaching the
deletion statement. -/
def runUntilSome (ctx : Ctx) (info : CInfo) (stops : List Stop) : PrimOut :=
  match runUntilLoop ctx info stops with
  | .ok i a r => .ok i (.createBp :: a ++ [.deleteBp]) r
  | .fatalT a => .fatalT (.createBp :: a)
  | .crash a => .crash (.createBp :: a)
  | .stuck => .stuck

/-- `Converter.run_until_exit`: `continue` in a loop, emitting `0x0` every
iteration, until the result is Exit or Error; then move to `(Middle, none)`. -/
def runUntilExit (info : CInfo) : List Stop → PrimOut
  | [] => .stuck
  | s :: rest =>
    match s.res with
    | .exit => .ok (moveTo info ⟨info.current.tid, .Middle, none⟩ false) [.emit 0] rest
    | .error => .ok (moveTo info ⟨info.current.tid, .Middle, none⟩ false) [.emit 0] rest
    | _ =>
      match runUntilExit info rest with
      | .ok i a r => .ok i (.emit 0 :: a) r
      | .fatalT a => .fatalT (.emit 0 :: a)
      | .crash a => .crash (.emit 0 :: a)
      | .stuck => .stuck

/-- `Converter.run_until` (both cases). -/
def runUntil (ctx : Ctx) (flOpt : Option FileLine) (info : CInfo) (stops : List Stop) :
    PrimOut :=
  match flOpt with
  | none => runUntilExit info stops
  | some _ => runUntilSome ctx info stops

/-- `Converter.run_next`: always emits exactly one PC line on a normal
return; `assert level == 0` on success crashes when violated. -/
def runNext (ctx : Ctx) (info : CInfo) : List Stop → PrimOut
  | [] => .stuck
  | s :: rest =>
    match s.res with
    | .clone => .ok (intoMiddle info) [.emit 0] rest
    | .timeout => .ok (intoMiddle info) [.emit 0] rest
    | .exit => .ok (moveTo info ⟨info.current.tid, .Middle, none⟩ false) [.emit 0] rest
    | .error => .ok (moveTo info ⟨info.current.tid, .Middle, none⟩ false) [.emit 0] rest
    | .success =>
      if s.level ≠ 0 then .crash []
      else
        match s.pos with
        | none => .crash [.emit (s.pc - ctx.base)]
        | some af =>
          .ok (moveTo info ⟨info.current.tid, .Before, some (af.relativeTo ctx.srcdir)⟩ true)
            [.emit (s.pc - ctx.base)] rest

/-- `Converter.run_finish`: asserts the thread is still `Middle`; Timeout
and a below-top landing (`level ≠ 0`) emit nothing and change nothing;
Clone/Exit/Error emit `0x0` without a state change; a top-level success
emits the new PC and moves to `Before`. -/
def runFinish (ctx : Ctx) (info : CInfo) : List Stop → PrimOut
  | [] => .stuck
  | s :: rest =>
    if info.current.lineLoc ≠ LineLoc.Middle then .crash []
    else
      match s.res with
      | .clone => .ok info [.emit 0] rest
      | .exit => .ok info [.emit 0] rest
      | .error => .ok info [.emit 0] rest
      | .timeout => .ok info [] rest
      | .success =>
        if s.level = 0 then
          match s.pos with
          | none => .crash [.emit (s.pc - ctx.base)]
          | some af =>
            .ok (moveTo info ⟨info.current.tid, .Before, some (af.relativeTo ctx.srcdir)⟩ true)
              [.emit (s.pc - ctx.base)] rest
        else .ok info [] rest

/-- `Converter.run_until_and_next`: `run_until`, then (when the target was
not none) `run_next`. -/
def runUntilAndNext (ctx : Ctx) (flOpt : Option FileLine) (info : CInfo)
    (stops : List Stop) : PrimOut :=
  match runUntil ctx flOpt info stops with
  | .ok i a r =>
    match flOpt with
    | none => .ok i a r
    | some _ =>
      match runNext ctx i r with
      | .ok i2 a2 r2 => .ok i2 (a ++ a2) r2
      | .fatalT a2 => .fatalT (a ++ a2)
      | .crash a2 => .crash (a ++ a2)
      | .stuck => .stuck
  | .fatalT a => .fatalT a
  | .crash a => .crash a
  | .stuck => .stuck

/-- Result of `Converter.process_one`: a normal return with the updated
thread table and the actions performed; the fatal `RuntimeError` for a
failed thread switch; the `ValueError` for an `After` line tag; the
propagated `RuntimeError` from a `run_until` timeout; an uncaught Python
exception (`IndexError`/`AttributeError`/`AssertionError`); or oracle
exhaustion. -/
inductive POut
  | ret (threads : List (Option CInfo)) (acts : List Act)
  | raiseSwitch
  | raiseValue
  | raiseTimeout (acts : List Act)
  | crash (acts : List Act)
  | stuck
  deriving DecidableEq

/-- Store the updated ThreadInfo back into the table and convert a primitive
outcome into a `process_one` outcome, prefixing already-performed actions. -/
def poWrap (threads : List (Option CInfo)) (tid : ℕ) (acc : List Act) :
    PrimOut → POut
  | .ok i a _ => .ret (threads.set tid (some i)) (acc ++ a)
  | .fatalT a => .raiseTimeout (acc ++ a)
  | .crash a => .crash (acc ++ a)
  | .stuck => .stuck

/-- The `if info.line_loc == LineLoc.Middle` block of `process_one`
(reached directly, or by fall-through after the Before/Before `run_until`
has left the thread in `Middle`). -/
def poMiddle (ctx : Ctx) (threads : List (Option CInfo)) (tpos : ThreadPos)
    (curMatch : Bool) (i : CInfo) (acc : List Act) (stops : List Stop) : POut :=
  if tpos.lineLoc = LineLoc.Before then
    poWrap threads tpos.tid acc (runUntil ctx tpos.fileLine i stops)
  else if curMatch then poWrap threads tpos.tid acc (runFinish ctx i stops)
  else poWrap threads tpos.tid acc (runUntilAndNext ctx tpos.fileLine i stops)

/-- The forward-progress test of the Before/Before no-op row:
`last_target` and the target are in the same file with the target strictly
later. -/
def lastTargetEarlierB : Option FileLine → Option FileLine → Bool
  | some lt, some t => decide (lt.filename = t.filename) && decide (lt.line < t.line)
  | _, _ => false

/-- `Converter.process_one`.  `live` is `gdb_live()`, `sw` the result of
`gdb_switch_thread(tpos.tid)` (an external query), `stops` the oracle for
the debugger commands that follow.  The thread lookup `threads[tpos.tid]`
is unguarded; index 0 holds the `None` placeholder. -/
def processOne (ctx : Ctx) (threads : List (Option CInfo)) (tpos : ThreadPos)
    (live sw : Bool) (stops : List Stop) : POut :=
  match threads.get? tpos.tid with
  | none => .crash []
  | some oinfo =>
    if live = false then .ret threads []
    else if sw = false then
      match tpos.fileLine with
      | none => .ret threads []
      | some _ =>
        match oinfo with
        | none => .crash []
        | some info =>
          if info.current.fileLine = none then .ret threads [] else .raiseSwitch
    else if tpos.lineLoc = LineLoc.After then .raiseValue
    else
      match oinfo with
      | none => .crash []
      | some info =>
        if info.current.lineLoc = LineLoc.After then .raiseValue
        else
          let curMatch := optFLeq (breakPosition ctx.positions ctx.srcdir tpos.fileLine)
            info.current.fileLine
          let lastTarget := info.lastTarget
          let info1 : CInfo := { info with lastTarget := tpos.fileLine }
          if info1.current.lineLoc = LineLoc.Before then
            if tpos.lineLoc = LineLoc.Before then
              if curMatch && lastTargetEarlierB lastTarget tpos.fileLine then
                .ret (threads.set tpos.tid (some info1)) []
              else
                match runUntil ctx tpos.fileLine info1 stops with
                | .ok i2 a r =>
                  if i2.current.lineLoc = LineLoc.Middle then
                    poMiddle ctx threads tpos curMatch i2 a r
                  else .ret (threads.set tpos.tid (some i2)) a
                | .fatalT a => .raiseTimeout a
                | .crash a => .crash a
                | .stuck => .stuck
            else
              if optFLeq tpos.fileLine info1.lastFinished then
                .ret (threads.set tpos.tid (some info1)) []
              else if curMatch then poWrap threads tpos.tid [] (runNext ctx info1 stops)
              else poWrap threads tpos.tid [] (runUntilAndNext ctx tpos.fileLine info1 stops)
          else poMiddle ctx threads tpos curMatch info1 [] stops

/-- The exact condition under which a completed `process_one` emits no PC
line: a dead inferior, a failed thread switch, one of the two no-op rows of
the state machine, or a `run_finish` that times out or lands below the top
frame. -/
def zeroEmissionB (ctx : Ctx) (threads : List (Option CInfo)) (tpos : ThreadPos)
    (live sw : Bool) (stops : List Stop) : Bool :=
  if live = false then true
  else if sw = false then true
  else
    match threads.get? tpos.tid with
    | some (some info) =>
      let curMatch := optFLeq (breakPosition ctx.positions ctx.srcdir tpos.fileLine)
        info.current.fileLine
      if info.current.lineLoc = LineLoc.Before ∧ tpos.lineLoc = LineLoc.Before then
        curMatch && lastTargetEarlierB info.lastTarget tpos.fileLine
      else if info.current.lineLoc = LineLoc.Before ∧ tpos.lineLoc = LineLoc.Middle then
        optFLeq tpos.fileLine info.lastFinished
      else if info.current.lineLoc = LineLoc.Middle ∧ tpos.lineLoc = LineLoc.Middle ∧
          curMatch = true then
        match stops with
        | s :: _ => decide (s.res = RunResult.timeout) ||
            (decide (s.res = RunResult.success) && decide (s.level ≠ 0))
        | [] => false
      else false
    | _ => false

/-- `Converter.add_new_thread`: the new ThreadInfo is appended at index
`len(threads)`, which the source asserts equals the gdb thread's
`global_num`; `last_finished` and `last_target` start as `None`. -/
def addNewThread (threads : List (Option CInfo)) (ll : LineLoc) (fl : Option FileLine) :
    List (Option CInfo) :=
  threads ++ [some ⟨⟨threads.length, ll, fl⟩, none, none⟩]

/-- The Replayer thread-table invariant: index 0 holds the `None`
placeholder and every real entry's `tid` equals its index. -/
def tableOk (threads : List (Option CInfo)) : Prop :=
  threads.get? 0 = some none ∧
  ∀ i info, threads.get? i = some (some info) → info.current.tid = i

/-- Modelled from the spec: `switch_thread(global_num) -> bool` of the
DebuggerAdapter (`gdb_switch_thread` is not among the provided sources).
Switching succeeds exactly when some live thread has that `global_num`;
gdb global thread numbers start at 1, so switching to 0 always fails. -/
def switchThreadOk (globalNums : List ℕ) (tid : ℕ) : Bool :=
  globalNums.contains tid

/-! ## Concrete instances used by the closed theorems below -/

/-- A source directory. -/
def srcdirC : Str := "/s".toList

/-- A line table with two breakable points of `a.c`. -/
def posTableC : List FileLine :=
  [⟨"/s/a.c".toList, 3, 100⟩, ⟨"/s/a.c".toList, 5, 200⟩]

/-- A Replayer context over `posTableC`. -/
def ctxC : Ctx := ⟨posTableC, srcdirC, 0⟩

/-- The srcdir-relative key of line 3 of `a.c`. -/
def flac3 : FileLine := ⟨"a.c".toList, 3, 0⟩

/-- A thread stopped `Before` line 3 whose previous replay target was line 2
of the same file. -/
def infoC : CInfo := ⟨⟨1, .Before, some flac3⟩, none, some ⟨"a.c".toList, 2, 0⟩⟩

/-- A Replayer thread table: the index-0 placeholder plus thread 1. -/
def threadsC : List (Option CInfo) := [none, some infoC]

/-- A trace record asking thread 1 to be `Before` line 3 again. -/
def tposC : ThreadPos := ⟨1, .Before, some flac3⟩

/-- A thread stopped mid-line. -/
def infoM : CInfo := ⟨⟨1, .Middle, none⟩, none, none⟩

/-- A `run_gdb_cmd` stop that timed out. -/
def stopTimeout : Stop := ⟨.timeout, none, 0, 0⟩

/-- A `run_gdb_cmd` stop reporting thread exit. -/
def stopExit : Stop := ⟨.exit, none, 0, 0⟩

/-- A trace record naming thread id 0 with no file line. -/
def tpos0 : ThreadPos := ⟨0, .Middle, none⟩

/-- A trace record naming thread id 0 with a file line. -/
def tpos0f : ThreadPos := ⟨0, .Middle, some flac3⟩

/-- A trace record naming a thread id past the table. -/
def tpos5 : ThreadPos := ⟨5, .Before, some flac3⟩

/-- 100 adds: each of 20 distinct position strings five times. -/
def ops20 : List PosOp :=
  (List.range 20).flatMap (fun i => List.replicate 5 (PosOp.add (natRepr i)))

/-- The window state after `ops20`: 20 distinct entries of multiplicity 5. -/
def pc0 : PosCount := runPosOps ops20

/-- A stored thread position. -/
def posA : Position := ⟨none, 5⟩

/-- A distinct position, reported by `thread_position` on refresh. -/
def posB : Position := ⟨none, 7⟩

/-- A `try_step` oracle whose chosen command fails with `gdb.error`. -/
def oracleErr : TryOracle := ⟨.gdbErr, posB, []⟩

/-- A `try_step` oracle whose chosen command times out. -/
def oracleTO : TryOracle := ⟨.timedOut, posB, []⟩

/-- Two valid tracer threads, the second with a reduced weight. -/
def threads8 : List SThread := [⟨1, true⟩, ⟨1 / 2, true⟩]

/-- A scheduler tick choosing thread 1, whose `try_step` fails. -/
def tick8 : SchedTick := ⟨true, [], 1, false⟩

/-- A scheduler tick choosing thread 1, whose `try_step` succeeds. -/
def tick8s : SchedTick := ⟨true, [], 1, true⟩

/-- A ThreadPos whose filename is literally `None`. -/
def t7 : ThreadPos := ⟨1, .Before, some ⟨"None".toList, 5, 0⟩⟩

/-- An ordinary ThreadPos for the round-trip witness. -/
def t7w : ThreadPos := ⟨2, .Middle, some ⟨"a.c".toList, 7, 0⟩⟩

/-- A lookup key below the first line-table entry. -/
def keyC : FileLine := ⟨"a.c".toList, 1, 0⟩

/-! # Theorems -/

/-! ## Decimal representation -/

theorem natReprAux_stable (n : ℕ) :
    ∀ f1 f2, n < f1 → n < f2 → natReprAux f1 n = natReprAux f2 n := by
  induction n using Nat.strong_induction_on with
  | _ n ih =>
    intro f1 f2 h1 h2
    cases f1 with
    | zero => omega
    | succ a =>
      cases f2 with
      | zero => omega
      | succ b =>
        by_cases h : n < 10
        · simp [natReprAux, h]
        · simp only [natReprAux, if_neg h]
          have hd : n / 10 < n := Nat.div_lt_self (by omega) (by omega)
          rw [ih (n / 10) hd a b (by omega) (by omega)]

theorem natRepr_eq (n : ℕ) :
    natRepr n =
      if n < 10 then [Char.ofNat (48 + n)]
      else natRepr (n / 10) ++ [Char.ofNat (48 + n % 10)] := by
  show natReprAux (n + 1) n = _
  by_cases h : n < 10
  · simp [natReprAux, h]
  · simp only [natReprAux, if_neg h]
    have hd : n / 10 < n := Nat.div_lt_self (by omega) (by omega)
    rw [natReprAux_stable (n / 10) n (n / 10 + 1) hd (by omega)]
    rfl

theorem natRepr_digit (n : ℕ) : ∀ c ∈ natRepr n, c.isDigit = true := by
  induction n using Nat.strong_induction_on with
  | _ n ih =>
    rw [natRepr_eq]
    by_cases h : n < 10
    · rw [if_pos h]
      intro c hc
      simp only [List.mem_singleton] at hc
      subst hc
      interval_cases n <;> decide
    · rw [if_neg h]
      intro c hc
      rcases List.mem_append.1 hc with h1 | h1
      · exact ih _ (Nat.div_lt_self (by omega) (by omega)) c h1
      · simp only [List.mem_singleton] at h1
        subst h1
        have hm : n % 10 < 10 := Nat.mod_lt _ (by norm_num)
        generalize hk : n % 10 = k at hm
        interval_cases k <;> decide

theorem natRepr_ne_nil (n : ℕ) : natRepr n ≠ [] := by
  rw [natRepr_eq]
  split <;> simp

theorem natOfDigits_append_one (l : Str) (c : Char) :
    natOfDigits (l ++ [c]) = 10 * natOfDigits l + (c.toNat - 48) := by
  simp [natOfDigits, List.foldl_append]

theorem natOfDigits_natRepr (n : ℕ) : natOfDigits (natRepr n) = n := by
  induction n using Nat.strong_induction_on with
  | _ n ih =>
    rw [natRepr_eq]
    by_cases h : n < 10
    · rw [if_pos h]
      show 10 * 0 + ((Char.ofNat (48 + n)).toNat - 48) = n
      interval_cases n <;> decide
    · rw [if_neg h, natOfDigits_append_one, ih _ (Nat.div_lt_self (by omega) (by omega))]
      have hm : n % 10 < 10 := Nat.mod_lt _ (by norm_num)
      have hchar : (Char.ofNat (48 + n % 10)).toNat - 48 = n % 10 := by
        generalize hk : n % 10 = k at hm
        interval_cases k <;> decide
      rw [hchar]
      omega

/-! ## String helpers -/

theorem takeWhile_append_stop {p : Char → Bool} (l : List Char) (x : Char) (r : List Char)
    (h1 : ∀ a ∈ l, p a = true) (h2 : p x = false) :
    (l ++ x :: r).takeWhile p = l := by
  induction l with
  | nil => simp [List.takeWhile_cons, h2]
  | cons a t ih =>
    have ha : p a = true := h1 a (by simp)
    simp only [List.cons_append, List.takeWhile_cons, ha, ite_true]
    rw [ih (fun b hb => h1 b (by simp [hb]))]

theorem takeWhile_all {p : Char → Bool} (l : List Char) (h : ∀ a ∈ l, p a = true) :
    l.takeWhile p = l := by
  induction l with
  | nil => rfl
  | cons a t ih =>
    have := h a (by simp)
    simp [List.takeWhile_cons, this, ih (fun b hb => h b (by simp [hb]))]

/-! ## The log-line parser -/

theorem matchTail_no_colon (l : Str) (h : ':' ∉ l) : matchTail l = none := by
  induction l with
  | nil => rfl
  | cons c rest ih =>
    have hc : c ≠ ':' := fun hh => h (by simp [hh])
    have hr : matchTail rest = none := ih (fun hh => h (by simp [hh]))
    rw [matchTail, hr]
    simp [hc]

theorem matchTail_split (A D : Str) (hA : '\n' ∉ A)
    (hD : ∀ c ∈ D, c.isDigit = true) (hDne : D ≠ []) :
    matchTail (A ++ ':' :: D) = some (A, D) := by
  induction A with
  | nil =>
    have hnc : ':' ∉ D := by
      intro hmem
      have := hD _ hmem
      simp at this
    rw [List.nil_append, matchTail, matchTail_no_colon D hnc]
    simp only [if_pos rfl]
    rw [takeWhile_all D hD]
    simp [List.isEmpty_iff, hDne]
  | cons a A ih =>
    have ha : a ≠ '\n' := fun hh => hA (by simp [hh])
    have hA2 : '\n' ∉ A := fun hh => hA (by simp [hh])
    rw [List.cons_append, matchTail, ih hA2]
    simp [ha]

theorem isEmpty_natRepr (n : ℕ) : (natRepr n).isEmpty = false := by
  cases hnr : natRepr n with
  | nil => exact absurd hnr (natRepr_ne_nil n)
  | cons a l => rfl

theorem parseLogChars_build (tid : ℕ) (ll : LineLoc) (P : Str) (flv : Option FileLine)
    (h1 : ll ≠ LineLoc.After) (hpp : parsePosPart P = some flv) :
    parseLogChars (natRepr tid ++ ' ' :: locChar ll :: ' ' :: P) =
      some ⟨tid, ll, flv⟩ := by
  have hds : (natRepr tid ++ ' ' :: locChar ll :: ' ' :: P).takeWhile Char.isDigit =
      natRepr tid :=
    takeWhile_append_stop _ _ _ (natRepr_digit tid) (by decide)
  rw [parseLogChars]
  simp only [hds, isEmpty_natRepr, Bool.false_eq_true, if_false, List.drop_left]
  cases ll with
  | After => exact absurd rfl h1
  | Before =>
    show (if '=' = '=' then _ else _) = _
    rw [if_pos rfl, hpp, Option.map_some', natOfDigits_natRepr]
  | Middle =>
    show (if '>' = '=' then _ else if '>' = '>' then _ else _) = _
    rw [if_neg (by decide), if_pos rfl, hpp, Option.map_some', natOfDigits_natRepr]

theorem parse_threadPosStr (t : ThreadPos) (h1 : t.lineLoc ≠ LineLoc.After)
    (h2 : ∀ f, t.fileLine = some f →
      '\n' ∉ f.filename ∧ "None".toList.isPrefixOf (fileLineStr f) = false) :
    parseLogChars (threadPosStr t) =
      some ⟨t.tid, t.lineLoc, t.fileLine.map (fun f => ⟨f.filename, f.line, 0⟩)⟩ := by
  obtain ⟨tid, ll, fl⟩ := t
  cases fl with
  | none => exact parseLogChars_build tid ll "None".toList none h1 (by decide)
  | some f =>
    obtain ⟨hnl, hpre⟩ := h2 f rfl
    have hmt : matchTail (fileLineStr f) = some (f.filename, natRepr f.line) :=
      matchTail_split f.filename (natRepr f.line) hnl (natRepr_digit _) (natRepr_ne_nil _)
    have hpp : parsePosPart (fileLineStr f) = some (some ⟨f.filename, f.line, 0⟩) := by
      rw [parsePosPart, hpre, hmt]
      simp only [Bool.false_eq_true, if_false, natOfDigits_natRepr]
    exact parseLogChars_build tid ll (fileLineStr f) (some ⟨f.filename, f.line, 0⟩) h1 hpp

/-- C7 (amended): serializing a parsed well-formed trace line reproduces the
line, provided the position field (when not exactly `None`) does not begin
with the four characters `None`. -/
theorem c7_roundtrip (t : ThreadPos) (h1 : t.lineLoc ≠ LineLoc.After)
    (h2 : ∀ f, t.fileLine = some f →
      '\n' ∉ f.filename ∧ "None".toList.isPrefixOf (fileLineStr f) = false) :
    (parseLogChars (threadPosStr t)).map threadPosStr = some (threadPosStr t) := by
  rw [parse_threadPosStr t h1 h2, Option.map_some']
  cases hfl : t.fileLine with
  | none => simp [threadPosStr, hfl]
  | some f => simp [threadPosStr, fileLineStr, hfl]

/-- C7 (counterexample): the well-formed line `1 = None:5` — tid 1, tag `=`,
file `None`, line 5 — does not round-trip: the regex alternation takes the
literal-`None` branch first, so re-serialization yields `1 = None`. -/
theorem c7_cex :
    (parseLogChars (threadPosStr t7)).map threadPosStr = some ("1 = None".toList) ∧
    threadPosStr t7 = "1 = None:5".toList ∧
    ("1 = None".toList : Str) ≠ "1 = None:5".toList := by decide

/-- C7 (witness): the round-trip theorem applied to the concrete line
`2 > a.c:7`. -/
theorem c7_roundtrip_witness :
    (parseLogChars (threadPosStr t7w)).map threadPosStr = some (threadPosStr t7w) :=
  c7_roundtrip t7w (by decide)
    (by
      intro f hf
      have : f = ⟨"a.c".toList, 7, 0⟩ := by
        have : some (⟨"a.c".toList, 7, 0⟩ : FileLine) = some f := hf
        exact (Option.some_injective _ this).symm
      subst this
      exact ⟨by decide, by decide⟩)

/-- C4 (amended): a record whose location tag is `-` never parses
(`parse_log_line` returns `None`), and `read_log` silently skips it rather
than raising; the fatal invalid-log `ValueError` fires only for a
`LineLoc.After` record handed directly to `process_one`. -/
theorem c4_dash_skipped :
    (∀ ds rest : Str, (∀ c ∈ ds, c.isDigit = true) →
      parseLogChars (ds ++ ' ' :: '-' :: rest) = none) ∧
    (∀ (pre post : List Str) (l ds rest : Str), (∀ c ∈ ds, c.isDigit = true) →
      stripChars l = ds ++ ' ' :: '-' :: rest →
      readLog (pre ++ l :: post) = readLog pre ++ readLog post) ∧
    (∀ ctx threads tpos oinfo stops, threads.get? tpos.tid = some oinfo →
      tpos.lineLoc = LineLoc.After →
      processOne ctx threads tpos true true stops = POut.raiseValue) := by
  have key : ∀ ds rest : Str, (∀ c ∈ ds, c.isDigit = true) →
      parseLogChars (ds ++ ' ' :: '-' :: rest) = none := by
    intro ds rest h
    cases ds with
    | nil => simp [parseLogChars, List.takeWhile_cons]
    | cons a t =>
      have hds : ((a :: t) ++ ' ' :: '-' :: rest).takeWhile Char.isDigit = a :: t :=
        takeWhile_append_stop _ _ _ h (by decide)
      rw [parseLogChars]
      simp only [hds, List.isEmpty_cons, Bool.false_eq_true, if_false,
        List.drop_left]
      split
      next c rest2 heq =>
        injection heq with ha hb
        injection hb with hc hd
        subst hc
        rw [if_neg (by decide), if_neg (by decide)]
      next => rfl
  refine ⟨key, ?_, ?_⟩
  · intro pre post l ds rest h hstrip
    have hnone : parseLogChars (stripChars l) = none := by
      rw [hstrip]
      exact key ds rest h
    simp [readLog, List.filterMap_append, List.filterMap_cons, hnone]
  · intro ctx threads tpos oinfo stops hget hAfter
    rw [processOne, hget]
    simp [hAfter]

/-- C4 (counterexample): the `-`-tagged line `1 - None` is silently dropped
by `read_log` — the resulting record list is empty and no error is raised —
contradicting the claim that the Replayer rejects it fatally. -/
theorem c4_cex :
    readLog ["1 - None".toList] = ([] : List ThreadPos) ∧
    parseLogChars (stripChars "1 - None".toList) = none := by decide

/-- C4 (witness): the amended theorem applied to the concrete line
`1 - None` inside a log, and to an `After` record reaching `process_one`. -/
theorem c4_witness :
    parseLogChars (['1'] ++ ' ' :: '-' :: " None".toList) = none ∧
    readLog (["2 = None".toList] ++ "1 - None".toList :: []) =
      readLog ["2 = None".toList] ++ readLog [] ∧
    processOne ctxC threadsC ⟨1, LineLoc.After, none⟩ true true [] = POut.raiseValue :=
  ⟨c4_dash_skipped.1 ['1'] " None".toList (by decide),
   c4_dash_skipped.2.1 ["2 = None".toList] [] ("1 - None".toList) ['1'] " None".toList
     (by decide) (by decide),
   c4_dash_skipped.2.2 ctxC threadsC ⟨1, LineLoc.After, none⟩ (some infoC) []
     (by decide) rfl⟩

/-! ## `break_position` idempotence -/

theorem flt_congr (b x y : FileLine) (hf : x.filename = y.filename)
    (hl : x.line = y.line) : flt b x = flt b y := by
  simp [flt, hf, hl]

theorem takeWhile_length_eq {α : Type} (p : α → Bool) (l : List α) :
    ∀ (i : ℕ) (hi : i < l.length),
      (∀ j (hj : j < i), p (l.get ⟨j, lt_trans hj hi⟩) = true) →
      p (l.get ⟨i, hi⟩) = false → (l.takeWhile p).length = i := by
  induction l with
  | nil => intro i hi h1 h2; simp at hi
  | cons a t ih =>
    intro i hi h1 h2
    cases i with
    | zero =>
      have ha : p a = false := h2
      simp [List.takeWhile_cons, ha]
    | succ i =>
      have ha : p a = true := h1 0 (Nat.succ_pos i)
      simp only [List.takeWhile_cons, ha, ite_true, List.length_cons]
      have hi2 : i < t.length := by simpa using hi
      rw [ih i hi2 (fun j hj => h1 (j + 1) (Nat.succ_lt_succ hj)) h2]

theorem bisectLeft_self (l : List FileLine)
    (hsort : l.Pairwise (fun a b => flt a b = true)) (i : ℕ) (hi : i < l.length)
    (key : FileLine) (hf : key.filename = (l.get ⟨i, hi⟩).filename)
    (hl : key.line = (l.get ⟨i, hi⟩).line) :
    bisectLeft l key = i := by
  apply takeWhile_length_eq _ l i hi
  · intro j hj
    have hR := List.pairwise_iff_get.1 hsort ⟨j, lt_trans hj hi⟩ ⟨i, hi⟩ hj
    rw [flt_congr _ key (l.get ⟨i, hi⟩) hf hl]
    exact hR
  · rw [flt, if_pos hf.symm]
    simp [hl]

/-- C6 (confirmed): `break_position` is idempotent.  Hypotheses record what
`load_line_table` guarantees about the table: it is strictly sorted on
`(filename, line)` and every entry's filename lies under `srcdir` (so that
rebasing its srcdir-relative form reproduces it exactly). -/
theorem c6_breakPosition_idem (positions : List FileLine) (srcdir : Str)
    (hsort : positions.Pairwise (fun a b => flt a b = true))
    (hpre : ∀ p ∈ positions, srcdir ++ '/' :: pathRelTo p.filename srcdir = p.filename)
    (x : Option FileLine) (res : FileLine)
    (h : breakPosition positions srcdir x = some res) :
    breakPosition positions srcdir (some res) = some res := by
  cases x with
  | none => exact absurd h (by rw [breakPosition]; exact Option.noConfusion)
  | some f =>
    rw [breakPosition] at h
    cases hget : positions.get? (bisectLeft positions ⟨pathJoin srcdir f.filename, f.line, 0⟩)
      with
    | none => rw [hget] at h; exact absurd h (by exact Option.noConfusion)
    | some ans =>
      rw [hget] at h
      have hres : res = ans.relativeTo srcdir := (Option.some_injective _ h).symm
      subst hres
      have hmem : ans ∈ positions := List.get?_mem hget
      have hpre2 : srcdir ++ '/' :: pathRelTo ans.filename srcdir = ans.filename :=
        hpre ans hmem
      obtain ⟨hi, hgeteq⟩ := List.get?_eq_some.1 hget
      rw [breakPosition]
      have hkeyf : (FileLine.mk (pathJoin srcdir (ans.relativeTo srcdir).filename)
          (ans.relativeTo srcdir).line 0).filename =
          (positions.get ⟨_, hi⟩).filename := by
        rw [hgeteq]
        exact hpre2
      have hkeyl : (FileLine.mk (pathJoin srcdir (ans.relativeTo srcdir).filename)
          (ans.relativeTo srcdir).line 0).line = (positions.get ⟨_, hi⟩).line := by
        rw [hgeteq]; rfl
      rw [bisectLeft_self positions hsort _ hi _ hkeyf hkeyl]
      rw [List.get?_eq_get hi, hgeteq]

/-- C6 (witness): idempotence at the concrete key `a.c:1`, which
`break_position` resolves to the table entry `a.c:3`. -/
theorem c6_witness :
    breakPosition posTableC srcdirC (some (FileLine.mk "a.c".toList 3 100)) =
      some (FileLine.mk "a.c".toList 3 100) :=
  c6_breakPosition_idem posTableC srcdirC (by decide) (by decide) (some keyC)
    (FileLine.mk "a.c".toList 3 100) (by decide)

/-! ## `detect_loop` -/

set_option maxRecDepth 4000 in
theorem pc0_facts : pc0.num = 100 ∧ pc0.data.map Prod.snd = List.replicate 20 5 := by
  decide

theorem entropy_pc0 : entropy pc0 = Real.log (loopTheshold : ℝ) := by
  rw [entropy, pc0_facts.1, pc0_facts.2]
  rw [List.map_replicate, List.sum_replicate]
  have h5 : -(((5 : ℕ) : ℝ) / ((100 : ℕ) : ℝ)) * Real.log (((5 : ℕ) : ℝ) / ((100 : ℕ) : ℝ))
      = (1 : ℝ) / 20 * Real.log 20 := by
    push_cast
    have h1 : (5 : ℝ) / 100 = (20 : ℝ)⁻¹ := by norm_num
    rw [h1, Real.log_inv]
    ring
  rw [h5, nsmul_eq_mul]
  have h2 : (loopTheshold : ℝ) = (20 : ℝ) := by norm_num [loopTheshold]
  rw [h2]
  push_cast
  ring

theorem detectLoop_pc0 : DetectLoop pc0 true (clearCounter pc0) := by
  refine Or.inr (Or.inr ⟨?_, ?_, rfl, rfl⟩)
  · rw [pc0_facts.1]; omega
  · rw [entropy_pc0]; exact lt_irrefl _

/-- C2 (counterexample): a reachable window with 100 samples and 20 distinct
positions of multiplicity 5 has entropy exactly `log 20`; `detect_loop`
declares it a loop (the code tests `entropy > log 20` for the negative
branch), contradicting the claim that only entropy strictly below `log 20`
is a loop and that equality is NOT one. -/
theorem c2_cex :
    DetectLoop pc0 true (clearCounter pc0) ∧
    ¬ entropy pc0 < Real.log (loopTheshold : ℝ) :=
  ⟨detectLoop_pc0, by rw [entropy_pc0]; exact lt_irrefl _⟩

/-- C2 (amended): `detect_loop` declares a loop exactly when the window has
at least 100 samples and the entropy is at most (not strictly below)
`log LoopTheshold`; on a declaration the window is cleared in the same call,
otherwise it is untouched. -/
theorem c2_detect_loop (pc : PosCount) (b : Bool) (pc2 : PosCount)
    (h : DetectLoop pc b pc2) :
    (b = true ↔ 100 ≤ pc.num ∧ entropy pc ≤ Real.log (loopTheshold : ℝ)) ∧
    (b = true → pc2 = clearCounter pc) ∧
    (b = false → pc2 = pc) := by
  rcases h with ⟨h1, hb, hp⟩ | ⟨h1, h2, hb, hp⟩ | ⟨h1, h2, hb, hp⟩
  · subst hb; subst hp
    refine ⟨⟨fun hc => absurd hc (by decide), fun hx => absurd hx.1 (by omega)⟩,
      fun hc => absurd hc (by decide), fun _ => rfl⟩
  · subst hb; subst hp
    refine ⟨⟨fun hc => absurd hc (by decide), fun hx => absurd hx.2 (not_le.mpr h2)⟩,
      fun hc => absurd hc (by decide), fun _ => rfl⟩
  · subst hb; subst hp
    exact ⟨⟨fun _ => ⟨by omega, not_lt.mp h2⟩, fun _ => rfl⟩,
      fun _ => rfl, fun hc => absurd hc (by decide)⟩

/-- C2 (witness): the amended characterization applied to the concrete
100-sample window `pc0`. -/
theorem c2_witness :
    ((true = true) ↔ 100 ≤ pc0.num ∧ entropy pc0 ≤ Real.log (loopTheshold : ℝ)) ∧
    ((true = true) → clearCounter pc0 = clearCounter pc0) ∧
    ((true = false) → clearCounter pc0 = pc0) :=
  c2_detect_loop pc0 true (clearCounter pc0) detectLoop_pc0

/-! ## The `PosCount` sliding window -/

theorem dictGet_set_self (d : List (Str × ℕ)) (k : Str) (v : ℕ) :
    dictGet (dictSet d k v) k = some v := by
  induction d with
  | nil => simp [dictSet, dictGet]
  | cons p d ih =>
    by_cases h : p.1 = k
    · simp [dictSet, h, dictGet]
    · simp [dictSet, h, dictGet, ih]

theorem dictGet_set_ne (d : List (Str × ℕ)) (k k2 : Str) (v : ℕ) (h : k2 ≠ k) :
    dictGet (dictSet d k v) k2 = dictGet d k2 := by
  induction d with
  | nil => simp [dictSet, dictGet, Ne.symm h]
  | cons p d ih =>
    by_cases hp : p.1 = k
    · subst hp
      simp [dictSet, dictGet, Ne.symm h, fun hh : p.1 = k2 => h (hh.symm)]
    · by_cases hp2 : p.1 = k2
      · simp [dictSet, hp, dictGet, hp2, h]
      · simp [dictSet, hp, dictGet, hp2, ih, h]

theorem dictGet_del_ne (d : List (Str × ℕ)) (k k2 : Str) (h : k2 ≠ k)
    (hnd : (d.map Prod.fst).Nodup) :
    dictGet (dictDel d k) k2 = dictGet d k2 := by
  induction d with
  | nil => simp [dictDel, dictGet]
  | cons p d ih =>
    have hnd2 : (d.map Prod.fst).Nodup := (List.nodup_cons.1 hnd).2
    by_cases hp : p.1 = k
    · rw [dictDel, if_pos hp, dictGet, if_neg (by rw [hp]; exact Ne.symm h)]
    · by_cases hp2 : p.1 = k2
      · simp [dictDel, hp, dictGet, hp2, h]
      · simp [dictDel, hp, dictGet, hp2, ih hnd2, h]

theorem dictGet_none_iff (d : List (Str × ℕ)) (k : Str) :
    dictGet d k = none ↔ k ∉ d.map Prod.fst := by
  induction d with
  | nil => simp [dictGet]
  | cons q d ih =>
    by_cases hq : q.1 = k
    · simp [dictGet, hq]
    · simp [dictGet, hq, ih, Ne.symm hq]

theorem dictSet_keys (d : List (Str × ℕ)) (k : Str) (v : ℕ) :
    (dictSet d k v).map Prod.fst =
      if dictGet d k = none then d.map Prod.fst ++ [k] else d.map Prod.fst := by
  induction d with
  | nil => simp [dictSet, dictGet]
  | cons q d ih =>
    by_cases hq : q.1 = k
    · simp [dictSet, hq, dictGet]
    · rw [dictSet, if_neg hq, dictGet, if_neg hq]
      simp only [List.map_cons, ih]
      split <;> rfl

theorem dictSet_keys_nodup (d : List (Str × ℕ)) (k : Str) (v : ℕ)
    (hnd : (d.map Prod.fst).Nodup) :
    ((dictSet d k v).map Prod.fst).Nodup := by
  rw [dictSet_keys]
  split
  · rename_i hnone
    rw [List.nodup_append]
    refine ⟨hnd, List.nodup_singleton k, ?_⟩
    intro a ha hak
    simp only [List.mem_singleton] at hak
    subst hak
    exact (dictGet_none_iff d a).1 hnone ha
  · exact hnd

theorem dictDel_sublist (d : List (Str × ℕ)) (k : Str) : List.Sublist (dictDel d k) d := by
  induction d with
  | nil => simp [dictDel]
  | cons p d ih =>
    by_cases hp : p.1 = k
    · rw [dictDel, if_pos hp]
      exact List.sublist_cons_self p d
    · rw [dictDel, if_neg hp]
      exact List.Sublist.cons₂ p ih

theorem dictDel_keys_nodup (d : List (Str × ℕ)) (k : Str)
    (hnd : (d.map Prod.fst).Nodup) :
    ((dictDel d k).map Prod.fst).Nodup :=
  hnd.sublist ((dictDel_sublist d k).map Prod.fst)

theorem dictDel_self_not_mem (d : List (Str × ℕ)) (k : Str)
    (hnd : (d.map Prod.fst).Nodup) :
    k ∉ (dictDel d k).map Prod.fst := by
  induction d with
  | nil => simp [dictDel]
  | cons p d ih =>
    obtain ⟨hni, hnd2⟩ := List.nodup_cons.1 hnd
    by_cases hp : p.1 = k
    · rw [dictDel, if_pos hp, ← hp]
      exact hni
    · rw [dictDel, if_neg hp]
      simp only [List.map_cons, List.mem_cons]
      rintro (h1 | h1)
      · exact hp h1.symm
      · exact ih hnd2 h1

theorem dictGet_del_self (d : List (Str × ℕ)) (k : Str)
    (hnd : (d.map Prod.fst).Nodup) :
    dictGet (dictDel d k) k = none :=
  (dictGet_none_iff _ _).2 (dictDel_self_not_mem d k hnd)

theorem dictSet_mem (d : List (Str × ℕ)) (k : Str) (v : ℕ) (p : Str × ℕ)
    (hp : p ∈ dictSet d k v) : p = (k, v) ∨ p ∈ d := by
  induction d with
  | nil => simpa [dictSet] using hp
  | cons q d ih =>
    by_cases hq : q.1 = k
    · rw [dictSet, if_pos hq] at hp
      rcases List.mem_cons.1 hp with h1 | h1
      · exact Or.inl h1
      · exact Or.inr (List.mem_cons_of_mem q h1)
    · rw [dictSet, if_neg hq] at hp
      rcases List.mem_cons.1 hp with h1 | h1
      · exact Or.inr (h1 ▸ List.mem_cons_self q d)
      · rcases ih h1 with h2 | h2
        · exact Or.inl h2
        · exact Or.inr (List.mem_cons_of_mem q h2)

theorem runPosOps_snoc (ops : List PosOp) (op : PosOp) :
    runPosOps (ops ++ [op]) = applyPosOp (runPosOps ops) op := by
  simp [runPosOps, List.foldl_append]

theorem sinceClear_snoc_add (ops : List PosOp) (s : Str) :
    sinceClear (ops ++ [PosOp.add s]) = sinceClear ops ++ [s] := by
  simp [sinceClear, List.foldl_append]

theorem sinceClear_snoc_clear (ops : List PosOp) :
    sinceClear (ops ++ [PosOp.clear]) = [] := by
  simp [sinceClear, List.foldl_append]

theorem allAdds_snoc_add (ops : List PosOp) (s : Str) :
    allAdds (ops ++ [PosOp.add s]) = allAdds ops ++ [s] := by
  simp [allAdds]

theorem allAdds_snoc_clear (ops : List PosOp) :
    allAdds (ops ++ [PosOp.clear]) = allAdds ops := by
  simp [allAdds]

theorem allAdds_since_suffix (ops : List PosOp) :
    ∃ pre, allAdds ops = pre ++ sinceClear ops := by
  induction ops using List.reverseRecOn with
  | nil => exact ⟨[], rfl⟩
  | append_singleton ops op ih =>
    obtain ⟨pre, hpre⟩ := ih
    cases op with
    | add s =>
      exact ⟨pre, by rw [allAdds_snoc_add, sinceClear_snoc_add, hpre, List.append_assoc]⟩
    | clear =>
      exact ⟨allAdds (ops ++ [PosOp.clear]), by rw [sinceClear_snoc_clear, List.append_nil]⟩

theorem addNew_eq (loc : Str) (st : PosCount) :
    addNew loc st =
      if st.num + 1 > recentCnt then
        posRemove ⟨dictSet st.data loc (dictCount st.data loc + 1), st.log ++ [loc],
            st.num + 1⟩
          ((st.log ++ [loc]).getD ((st.log ++ [loc]).length - (st.num + 1)) [])
      else ⟨dictSet st.data loc (dictCount st.data loc + 1), st.log ++ [loc], st.num + 1⟩ :=
  rfl

theorem posRemove_eq (st : PosCount) (loc : Str) :
    posRemove st loc =
      ⟨if dictCount st.data loc = 1 then dictDel st.data loc
        else dictSet st.data loc (dictCount st.data loc - 1), st.log, st.num - 1⟩ :=
  rfl

/-- C9 (confirmed): after any operation sequence, `num` is
`min (adds since the last clear) 1000`, `data` is exactly the multiset of the
most recent `num` strings added since the last clear (by multiplicity, with
distinct positively-counted keys, so `values()` are the multiplicities), and
the internal log is the append-only list of every add, never truncated. -/
theorem c9_posCount (ops : List PosOp) :
    (runPosOps ops).num = min (sinceClear ops).length recentCnt ∧
    (runPosOps ops).log = allAdds ops ∧
    (∀ k, dictCount (runPosOps ops).data k = (posWindow ops).count k) ∧
    ((runPosOps ops).data.map Prod.fst).Nodup ∧
    (∀ p ∈ (runPosOps ops).data, 0 < p.2) := by
  induction ops using List.reverseRecOn with
  | nil =>
    refine ⟨rfl, rfl, ?_, by simp [runPosOps, PosCount.init], by simp [runPosOps, PosCount.init]⟩
    intro k
    simp [runPosOps, PosCount.init, dictCount, dictGet, posWindow, sinceClear]
  | append_singleton ops op ih =>
    obtain ⟨ihn, ihl, ihc, ihnd, ihpos⟩ := ih
    have hrc : recentCnt = 1000 := rfl
    cases op with
    | clear =>
      rw [runPosOps_snoc]
      simp only [applyPosOp]
      refine ⟨?_, ?_, ?_, ?_, ?_⟩
      · simp [clearCounter, sinceClear_snoc_clear]
      · rw [allAdds_snoc_clear]
        exact ihl
      · intro k
        simp [clearCounter, dictCount, dictGet, posWindow, sinceClear_snoc_clear]
      · simp [clearCounter]
      · simp [clearCounter]
    | add s =>
      rw [runPosOps_snoc]
      simp only [applyPosOp]
      generalize hst : runPosOps ops = st at ihn ihl ihc ihnd ihpos
      obtain ⟨pre, hpre⟩ := allAdds_since_suffix ops
      rw [addNew_eq]
      by_cases hlen : (sinceClear ops).length < recentCnt
      · -- below the window bound: no eviction
        have hnum : st.num = (sinceClear ops).length := by rw [ihn]; omega
        rw [if_neg (by omega)]
        have hwold : posWindow ops = sinceClear ops := by
          rw [posWindow]
          have h0 : (sinceClear ops).length - recentCnt = 0 := by omega
          rw [h0, List.drop_zero]
        have hwnew : posWindow (ops ++ [PosOp.add s]) = sinceClear ops ++ [s] := by
          rw [posWindow, sinceClear_snoc_add]
          have h0 : (sinceClear ops ++ [s]).length - recentCnt = 0 := by
            simp only [List.length_append, List.length_singleton]
            omega
          rw [h0, List.drop_zero]
        refine ⟨?_, ?_, ?_, ?_, ?_⟩
        · show st.num + 1 = _
          rw [sinceClear_snoc_add]
          simp only [List.length_append, List.length_singleton]
          omega
        · show st.log ++ [s] = _
          rw [allAdds_snoc_add, ihl]
        · intro k
          show dictCount (dictSet st.data s (dictCount st.data s + 1)) k = _
          rw [hwnew]
          by_cases hk : k = s
          · subst hk
            have hvv : dictCount st.data k = (sinceClear ops).count k := by
              rw [ihc k, hwold]
            have h2 : dictCount (dictSet st.data k (dictCount st.data k + 1)) k =
                dictCount st.data k + 1 := by
              simp [dictCount, dictGet_set_self]
            rw [h2, hvv, List.count_append]
            simp [List.count_singleton]
          · rw [dictCount, dictGet_set_ne _ _ _ _ hk]
            have : (dictGet st.data k).getD 0 = dictCount st.data k := rfl
            rw [this, ihc k, hwold, List.count_append]
            have h1 : ([s] : List Str).count k = 0 := by
              simp [List.count_singleton, hk]
            omega
        · exact dictSet_keys_nodup _ _ _ ihnd
        · intro p hp
          rcases dictSet_mem _ _ _ _ hp with h1 | h1
          · rw [h1]; exact Nat.succ_pos _
          · exact ihpos p h1
      · -- the window is full: the oldest window element is evicted
        have hlen2 : 1000 ≤ (sinceClear ops).length := by omega
        have hnum : st.num = 1000 := by rw [ihn, hrc]; omega
        rw [if_pos (by omega)]
        set m := (sinceClear ops).length - 1000 with hm
        have hmlt : m < (sinceClear ops).length := by omega
        have hlog1 : st.log ++ [s] = pre ++ (sinceClear ops ++ [s]) := by
          rw [ihl, hpre, List.append_assoc]
        obtain ⟨e, he⟩ : ∃ e, (sinceClear ops).get? m = some e :=
          ⟨_, List.get?_eq_get hmlt⟩
        have hgete : (sinceClear ops).get ⟨m, hmlt⟩ = e := by
          have := List.get?_eq_get hmlt
          rw [he] at this
          exact (Option.some_injective _ this).symm
        have hevict : (st.log ++ [s]).getD ((st.log ++ [s]).length - (st.num + 1)) [] = e := by
          have hidx : (st.log ++ [s]).length - (st.num + 1) = pre.length + m := by
            rw [hlog1]
            simp only [List.length_append, List.length_singleton]
            omega
          show ((st.log ++ [s]).get? _).getD [] = e
          rw [hidx, hlog1, List.get?_append_right (by omega : pre.length ≤ pre.length + m)]
          have h2 : pre.length + m - pre.length = m := by omega
          rw [h2, List.get?_append (by simpa using hmlt), he]
          rfl
        rw [hevict, posRemove_eq]
        have hwold : posWindow ops = e :: (sinceClear ops).drop (m + 1) := by
          rw [posWindow]
          have h1 : (sinceClear ops).length - recentCnt = m := by omega
          rw [h1, List.drop_eq_get_cons hmlt, hgete]
        have hwnew : posWindow (ops ++ [PosOp.add s]) =
            (sinceClear ops).drop (m + 1) ++ [s] := by
          rw [posWindow, sinceClear_snoc_add]
          have h1 : (sinceClear ops ++ [s]).length - recentCnt = m + 1 := by
            simp only [List.length_append, List.length_singleton]
            omega
          rw [h1, List.drop_append_of_le_length (by omega)]
        have hst1c : ∀ k, dictCount (dictSet st.data s (dictCount st.data s + 1)) k =
            (posWindow ops ++ [s]).count k := by
          intro k
          by_cases hk : k = s
          · subst hk
            simp [dictCount, dictGet_set_self, List.count_append, (ihc k).symm,
              List.count_singleton]
          · rw [dictCount, dictGet_set_ne _ _ _ _ hk]
            have h3 : (dictGet st.data k).getD 0 = dictCount st.data k := rfl
            rw [h3, ihc k, List.count_append]
            have h1 : ([s] : List Str).count k = 0 := by
              simp [List.count_singleton, hk]
            omega
        have hnd1 : ((dictSet st.data s (dictCount st.data s + 1)).map Prod.fst).Nodup :=
          dictSet_keys_nodup _ _ _ ihnd
        have hcnt_cons : ∀ k, (posWindow ops ++ [s]).count k =
            ((sinceClear ops).drop (m + 1) ++ [s]).count k + (if k = e then 1 else 0) := by
          intro k
          rw [hwold, List.cons_append, List.count_cons]
          by_cases hk : k = e
          · subst hk; simp
          · simp [hk, Ne.symm hk]
        have hvepos : 1 ≤ dictCount (dictSet st.data s (dictCount st.data s + 1)) e := by
          rw [hst1c e, hcnt_cons e, if_pos rfl]
          omega
        refine ⟨?_, ?_, ?_, ?_, ?_⟩
        · show st.num + 1 - 1 = _
          rw [sinceClear_snoc_add]
          simp only [List.length_append, List.length_singleton]
          omega
        · show st.log ++ [s] = _
          rw [allAdds_snoc_add, ihl]
        · intro k
          rw [hwnew]
          show dictCount (if dictCount (dictSet st.data s (dictCount st.data s + 1)) e = 1
              then dictDel (dictSet st.data s (dictCount st.data s + 1)) e
              else dictSet (dictSet st.data s (dictCount st.data s + 1)) e
                (dictCount (dictSet st.data s (dictCount st.data s + 1)) e - 1)) k = _
          by_cases hke : k = e
          · subst hke
            split
            · rename_i hone
              rw [dictCount, dictGet_del_self _ _ hnd1]
              have h4 := hst1c k
              rw [hcnt_cons k, if_pos rfl] at h4
              have h5 : ((sinceClear ops).drop (m + 1) ++ [s]).count k = 0 := by omega
              rw [h5]
              rfl
            · rename_i hone
              rw [dictCount, dictGet_set_self]
              have h4 := hst1c k
              rw [hcnt_cons k, if_pos rfl] at h4
              show dictCount (dictSet st.data s (dictCount st.data s + 1)) k - 1 = _
              omega
          · have h6 : (posWindow ops ++ [s]).count k =
                ((sinceClear ops).drop (m + 1) ++ [s]).count k := by
              rw [hcnt_cons k, if_neg hke]
              omega
            split
            · rw [dictCount, dictGet_del_ne _ _ _ hke hnd1]
              have h3 : (dictGet (dictSet st.data s (dictCount st.data s + 1)) k).getD 0 =
                  dictCount (dictSet st.data s (dictCount st.data s + 1)) k := rfl
              rw [h3, hst1c k, h6]
            · rw [dictCount, dictGet_set_ne _ _ _ _ hke]
              have h3 : (dictGet (dictSet st.data s (dictCount st.data s + 1)) k).getD 0 =
                  dictCount (dictSet st.data s (dictCount st.data s + 1)) k := rfl
              rw [h3, hst1c k, h6]
        · split
          · exact dictDel_keys_nodup _ _ hnd1
          · exact dictSet_keys_nodup _ _ _ hnd1
        · intro p hp
          have hmem1 : ∀ q, q ∈ dictSet st.data s (dictCount st.data s + 1) → 0 < q.2 := by
            intro q hq
            rcases dictSet_mem _ _ _ _ hq with h1 | h1
            · rw [h1]; exact Nat.succ_pos _
            · exact ihpos q h1
          split at hp
          · exact hmem1 p ((dictDel_sublist _ _).subset hp)
          · rename_i hone
            rcases dictSet_mem _ _ _ _ hp with h1 | h1
            · rw [h1]
              show 0 < dictCount (dictSet st.data s (dictCount st.data s + 1)) e - 1
              have h9 : 1 ≤ dictCount (dictSet st.data s (dictCount st.data s + 1)) e :=
                hvepos
              have h10 : dictCount (dictSet st.data s (dictCount st.data s + 1)) e ≠ 1 :=
                hone
              omega
            · exact hmem1 p h1

/-! ## `try_step` failure handling and the scheduler weights -/

/-- C5 (amended): when the initially chosen command times out, `try_step`
refreshes the thread's stored Position from `thread_position` and returns
false; when it fails with a debugger error, `try_step` returns false WITHOUT
refreshing the Position.  In both cases the caller (`step`) multiplies the
thread's scheduling weight by the drop factor. -/
theorem c5_try_step_failures :
    (∀ (stored : Position) (o : TryOracle), o.first = ExecRes.timedOut →
      tryStep stored o = TryOut.done false o.firstRefresh) ∧
    (∀ (stored : Position) (o : TryOracle), o.first = ExecRes.gdbErr →
      tryStep stored o = TryOut.done false stored) ∧
    (∀ (threads : List SThread) (i : ℕ) (info : SThread),
      threads.get? i = some info → info.valid = true →
      stepRun [⟨true, [], i, false⟩] threads =
        some (threads.set i { info with weight := info.weight * dropSchedWeight }, true)) := by
  refine ⟨?_, ?_, ?_⟩
  · intro stored o h
    rw [tryStep, h]
  · intro stored o h
    rw [tryStep, h]
  · intro threads i info hget hvalid
    rw [stepRun]
    simp only [List.map_nil, List.append_nil, hget, hvalid]
    rfl

/-- C5 (counterexample): with a `gdb.error` outcome, `try_step` returns the
thread's OLD stored position: `thread_position` is not consulted (the
`except gdb.error` arm has no refresh), falsifying the claim that both
failure cases refresh the Position. -/
theorem c5_cex :
    tryStep posA oracleErr = TryOut.done false posA ∧ posA ≠ oracleErr.firstRefresh := by
  decide

/-- C5 (witness): the amended theorem at concrete oracles — a timeout
refreshes, an error does not, and a failed step drops the weight. -/
theorem c5_witness :
    tryStep posA oracleTO = TryOut.done false oracleTO.firstRefresh ∧
    tryStep posA oracleErr = TryOut.done false posA ∧
    stepRun [⟨true, [], 1, false⟩] threads8 =
      some (threads8.set 1 ⟨(1 / 2 : ℚ) * dropSchedWeight, true⟩, true) :=
  ⟨c5_try_step_failures.1 posA oracleTO rfl,
   c5_try_step_failures.2.1 posA oracleErr rfl,
   c5_try_step_failures.2.2 threads8 1 ⟨1 / 2, true⟩ rfl rfl⟩

/-- C8 (confirmed): every ThreadInfo starts at the default weight 1.0, and
one `Tracer.step` call changes each pre-existing thread's weight only by:
leaving it alone, zeroing it when the thread was observed invalid, resetting
it to the default on a successful `try_step`, or multiplying it by the drop
factor on a failed one; threads appended mid-step end at 1.0, 0, or one drop
of 1.0 (the thread's validity flag is never touched). -/
theorem c8_sched_weight :
    (∀ v, (mkSThread v).weight = defaultSchedWeight) ∧
    (∀ (ticks : List SchedTick) (threads out : List SThread) (b : Bool),
      stepRun ticks threads = some (out, b) →
      (∀ i ti tf, threads.get? i = some ti → out.get? i = some tf →
        tf.valid = ti.valid ∧
        (tf.weight = ti.weight ∨
         (ti.valid = false ∧ tf.weight = 0) ∨
         (ti.valid = true ∧ tf.weight = defaultSchedWeight) ∨
         (ti.valid = true ∧ tf.weight = ti.weight * dropSchedWeight))) ∧
      (∀ j tf, threads.length ≤ j → out.get? j = some tf →
        tf.weight = defaultSchedWeight ∨ tf.weight = 0 ∨
        tf.weight = defaultSchedWeight * dropSchedWeight)) := by
  constructor
  · intro v; rfl
  · intro ticks
    induction ticks with
    | nil =>
      intro threads out b h
      rw [stepRun] at h
      exact Option.noConfusion h
    | cons t ts ih =>
      intro threads out b h
      rw [stepRun] at h
      by_cases hlive : t.live = false
      · rw [if_pos hlive] at h
        have hout : threads = out := congrArg Prod.fst (Option.some_injective _ h)
        subst hout
        refine ⟨?_, ?_⟩
        · intro i ti tf hti hto
          rw [hti] at hto
          obtain rfl := Option.some_injective _ hto
          exact ⟨rfl, Or.inl rfl⟩
        · intro j tf hj hto
          rw [List.get?_eq_none.2 hj] at hto
          exact Option.noConfusion hto
      · rw [if_neg hlive] at h
        simp only [] at h
        cases hget : (threads ++ t.newValids.map mkSThread).get? t.choice with
        | none =>
          rw [hget] at h
          exact Option.noConfusion h
        | some info =>
          rw [hget] at h
          simp only [] at h
          obtain ⟨hclt, -⟩ := List.get?_eq_some.1 hget
          by_cases hvalid : info.valid = true
          · rw [if_pos hvalid] at h
            have main : ∀ (w : ℚ),
                (w = defaultSchedWeight ∨ w = info.weight * dropSchedWeight) →
                out = (threads ++ t.newValids.map mkSThread).set t.choice
                  { info with weight := w } →
                (∀ i ti tf, threads.get? i = some ti → out.get? i = some tf →
                  tf.valid = ti.valid ∧
                  (tf.weight = ti.weight ∨
                   (ti.valid = false ∧ tf.weight = 0) ∨
                   (ti.valid = true ∧ tf.weight = defaultSchedWeight) ∨
                   (ti.valid = true ∧ tf.weight = ti.weight * dropSchedWeight))) ∧
                (∀ j tf, threads.length ≤ j → out.get? j = some tf →
                  tf.weight = defaultSchedWeight ∨ tf.weight = 0 ∨
                  tf.weight = defaultSchedWeight * dropSchedWeight) := by
              intro w hw hout
              subst hout
              constructor
              · intro i ti tf hti hto
                obtain ⟨hilen, -⟩ := List.get?_eq_some.1 hti
                have hi1 : (threads ++ t.newValids.map mkSThread).get? i = some ti := by
                  rw [List.get?_append hilen, hti]
                by_cases hic : i = t.choice
                · subst hic
                  rw [hget] at hi1
                  obtain rfl := Option.some_injective _ hi1
                  rw [List.get?_set_eq_of_lt _ hclt] at hto
                  obtain rfl := Option.some_injective _ hto
                  refine ⟨rfl, ?_⟩
                  rcases hw with rfl | rfl
                  · exact Or.inr (Or.inr (Or.inl ⟨hvalid, rfl⟩))
                  · exact Or.inr (Or.inr (Or.inr ⟨hvalid, rfl⟩))
                · rw [List.get?_set_ne _ _ (fun hh => hic hh.symm), hi1] at hto
                  obtain rfl := Option.some_injective _ hto
                  exact ⟨rfl, Or.inl rfl⟩
              · intro j tf hj hto
                by_cases hjc : j = t.choice
                · subst hjc
                  rw [List.get?_set_eq_of_lt _ hclt] at hto
                  obtain rfl := Option.some_injective _ hto
                  have hmem : info ∈ t.newValids.map mkSThread := by
                    rw [List.get?_append_right hj] at hget
                    exact List.get?_mem hget
                  obtain ⟨v, -, hv⟩ := List.mem_map.1 hmem
                  rcases hw with rfl | rfl
                  · exact Or.inl rfl
                  · rw [show info.weight = defaultSchedWeight from by rw [← hv]; rfl]
                    exact Or.inr (Or.inr rfl)
                · rw [List.get?_set_ne _ _ (fun hh => hjc hh.symm)] at hto
                  rw [List.get?_append_right hj] at hto
                  have hmem : tf ∈ t.newValids.map mkSThread := List.get?_mem hto
                  obtain ⟨v, -, hv⟩ := List.mem_map.1 hmem
                  rw [← hv]
                  exact Or.inl rfl
            by_cases hts : t.trySucceeds = true
            · rw [if_pos hts] at h
              exact main defaultSchedWeight (Or.inl rfl)
                (congrArg Prod.fst (Option.some_injective _ h)).symm
            · rw [if_neg hts] at h
              exact main (info.weight * dropSchedWeight) (Or.inr rfl)
                (congrArg Prod.fst (Option.some_injective _ h)).symm
          · rw [if_neg hvalid] at h
            have hvfalse : info.valid = false := by
              cases hb : info.valid
              · rfl
              · exact absurd hb hvalid
            obtain ⟨ih1, ih2⟩ := ih _ out b h
            constructor
            · intro i ti tf hti hto
              obtain ⟨hilen, -⟩ := List.get?_eq_some.1 hti
              have hi1 : (threads ++ t.newValids.map mkSThread).get? i = some ti := by
                rw [List.get?_append hilen, hti]
              by_cases hic : i = t.choice
              · subst hic
                rw [hget] at hi1
                obtain rfl := Option.some_injective _ hi1
                have hset : ((threads ++ t.newValids.map mkSThread).set t.choice
                    { info with weight := 0 }).get? t.choice =
                    some { info with weight := 0 } :=
                  List.get?_set_eq_of_lt _ hclt
                obtain ⟨hvaleq, hwopt⟩ := ih1 t.choice _ tf hset hto
                refine ⟨hvaleq, Or.inr (Or.inl ⟨hvfalse, ?_⟩)⟩
                rcases hwopt with h1 | ⟨-, h1⟩ | ⟨hv1, -⟩ | ⟨hv1, -⟩
                · exact h1
                · exact h1
                · rw [show ({ info with weight := 0 } : SThread).valid = info.valid from rfl,
                    hvfalse] at hv1
                  exact absurd hv1 (by decide)
                · rw [show ({ info with weight := 0 } : SThread).valid = info.valid from rfl,
                    hvfalse] at hv1
                  exact absurd hv1 (by decide)
              · have hset : ((threads ++ t.newValids.map mkSThread).set t.choice
                    { info with weight := 0 }).get? i = some ti := by
                  rw [List.get?_set_ne _ _ (fun hh => hic hh.symm), hi1]
                exact ih1 i ti tf hset hto
            · intro j tf hj hto
              by_cases hjc : j = t.choice
              · subst hjc
                have hset : ((threads ++ t.newValids.map mkSThread).set t.choice
                    { info with weight := 0 }).get? t.choice =
                    some { info with weight := 0 } :=
                  List.get?_set_eq_of_lt _ hclt
                obtain ⟨hvaleq, hwopt⟩ := ih1 t.choice _ tf hset hto
                rcases hwopt with h1 | ⟨-, h1⟩ | ⟨hv1, -⟩ | ⟨hv1, -⟩
                · exact Or.inr (Or.inl h1)
                · exact Or.inr (Or.inl h1)
                · rw [show ({ info with weight := 0 } : SThread).valid = info.valid from rfl,
                    hvfalse] at hv1
                  exact absurd hv1 (by decide)
                · rw [show ({ info with weight := 0 } : SThread).valid = info.valid from rfl,
                    hvfalse] at hv1
                  exact absurd hv1 (by decide)
              · have hset : ∀ x, (threads ++ t.newValids.map mkSThread).get? j = x →
                    ((threads ++ t.newValids.map mkSThread).set t.choice
                      { info with weight := 0 }).get? j = x := by
                  intro x hx
                  rw [List.get?_set_ne _ _ (fun hh => hjc hh.symm), hx]
                by_cases hjlen : j < (threads ++ t.newValids.map mkSThread).length
                · obtain ⟨ti1, hti1⟩ : ∃ ti1,
                      (threads ++ t.newValids.map mkSThread).get? j = some ti1 := by
                    rw [List.get?_eq_get hjlen]
                    exact ⟨_, rfl⟩
                  have hmem : ti1 ∈ t.newValids.map mkSThread := by
                    rw [List.get?_append_right hj] at hti1
                    exact List.get?_mem hti1
                  obtain ⟨v, -, hv⟩ := List.mem_map.1 hmem
                  obtain ⟨hvaleq, hwopt⟩ := ih1 j ti1 tf (hset _ hti1) hto
                  have hw1 : ti1.weight = defaultSchedWeight := by rw [← hv]; rfl
                  rcases hwopt with h1 | ⟨-, h1⟩ | ⟨-, h1⟩ | ⟨-, h1⟩
                  · rw [h1, hw1]; exact Or.inl rfl
                  · exact Or.inr (Or.inl h1)
                  · exact Or.inl h1
                  · rw [h1, hw1]; exact Or.inr (Or.inr rfl)
                · have hjlen2 : ((threads ++ t.newValids.map mkSThread).set t.choice
                      { info with weight := 0 }).length ≤ j := by
                    rw [List.length_set]
                    omega
                  exact ih2 j tf hjlen2 hto

/-- C8 (witness): the characterization applied to a successful step on a
concrete two-thread table: the chosen thread's weight is reset to 1.0. -/
theorem c8_witness :
    (⟨defaultSchedWeight, true⟩ : SThread).valid = (⟨1 / 2, true⟩ : SThread).valid ∧
    ((⟨defaultSchedWeight, true⟩ : SThread).weight = (⟨1 / 2, true⟩ : SThread).weight ∨
     ((⟨1 / 2, true⟩ : SThread).valid = false ∧
       (⟨defaultSchedWeight, true⟩ : SThread).weight = 0) ∨
     ((⟨1 / 2, true⟩ : SThread).valid = true ∧
       (⟨defaultSchedWeight, true⟩ : SThread).weight = defaultSchedWeight) ∨
     ((⟨1 / 2, true⟩ : SThread).valid = true ∧
       (⟨defaultSchedWeight, true⟩ : SThread).weight =
         (⟨1 / 2, true⟩ : SThread).weight * dropSchedWeight)) :=
  (c8_sched_weight.2 [tick8s] threads8 [⟨1, true⟩, ⟨defaultSchedWeight, true⟩] true rfl).1
    1 ⟨1 / 2, true⟩ ⟨defaultSchedWeight, true⟩ rfl rfl

/-! ## Replayer primitives: emission counting and breakpoint hygiene -/

theorem emits_append (a b : List Act) : emits (a ++ b) = emits a ++ emits b := by
  simp [emits, List.filterMap_append]

theorem emits_cons_emit (v : ℤ) (l : List Act) :
    emits (Act.emit v :: l) = v :: emits l := rfl

theorem emits_cons_createBp (l : List Act) : emits (Act.createBp :: l) = emits l := rfl

theorem emits_cons_deleteBp (l : List Act) : emits (Act.deleteBp :: l) = emits l := rfl

theorem runUntilLoop_ok_emits (ctx : Ctx) (info : CInfo) (stops : List Stop)
    (i : CInfo) (a : List Act) (r : List Stop)
    (h : runUntilLoop ctx info stops = PrimOut.ok i a r) : emits a ≠ [] := by
  cases stops with
  | nil => exact absurd h (by rw [runUntilLoop]; exact PrimOut.noConfusion)
  | cons s rest =>
    rw [runUntilLoop] at h
    cases hsr : s.res <;> rw [hsr] at h <;> simp only [] at h
    · cases hp : s.pos <;> rw [hp] at h <;> simp only [] at h
      · exact PrimOut.noConfusion h
      · injection h with h1 h2 h3
        subst h2
        simp [emits_cons_emit]
    · exact PrimOut.noConfusion h
    · cases hrec : runUntilLoop ctx info rest <;> rw [hrec] at h <;> simp only [] at h
      · injection h with h1 h2 h3
        subst h2
        simp [emits_cons_emit]
      · exact PrimOut.noConfusion h
      · exact PrimOut.noConfusion h
      · exact PrimOut.noConfusion h
    · injection h with h1 h2 h3
      subst h2
      simp [emits_cons_emit]
    · injection h with h1 h2 h3
      subst h2
      simp [emits_cons_emit]

theorem runUntilSome_ok_emits (ctx : Ctx) (info : CInfo) (stops : List Stop)
    (i : CInfo) (a : List Act) (r : List Stop)
    (h : runUntilSome ctx info stops = PrimOut.ok i a r) : emits a ≠ [] := by
  rw [runUntilSome] at h
  cases hrec : runUntilLoop ctx info stops <;> rw [hrec] at h <;> simp only [] at h
  · rename_i i2 a2 r2
    injection h with h1 h2 h3
    subst h2
    have := runUntilLoop_ok_emits ctx info stops i2 a2 r2 hrec
    rw [emits_append, emits_cons_createBp]
    intro hc
    exact this (List.append_eq_nil.1 hc).1
  · exact PrimOut.noConfusion h
  · exact PrimOut.noConfusion h
  · exact PrimOut.noConfusion h

theorem runUntilExit_ok_emits (info : CInfo) (stops : List Stop)
    (i : CInfo) (a : List Act) (r : List Stop)
    (h : runUntilExit info stops = PrimOut.ok i a r) : emits a ≠ [] := by
  cases stops with
  | nil => exact absurd h (by rw [runUntilExit]; exact PrimOut.noConfusion)
  | cons s rest =>
    rw [runUntilExit] at h
    cases hsr : s.res <;> rw [hsr] at h <;> simp only [] at h
    all_goals first
      | (injection h with h1 h2 h3
         subst h2
         simp [emits_cons_emit])
      | (cases hrec : runUntilExit info rest <;> rw [hrec] at h <;> simp only [] at h
         · injection h with h1 h2 h3
           subst h2
           simp [emits_cons_emit]
         · exact PrimOut.noConfusion h
         · exact PrimOut.noConfusion h
         · exact PrimOut.noConfusion h)

theorem runUntil_ok_emits (ctx : Ctx) (flOpt : Option FileLine) (info : CInfo)
    (stops : List Stop) (i : CInfo) (a : List Act) (r : List Stop)
    (h : runUntil ctx flOpt info stops = PrimOut.ok i a r) : emits a ≠ [] := by
  cases flOpt with
  | none => exact runUntilExit_ok_emits info stops i a r h
  | some fl => exact runUntilSome_ok_emits ctx info stops i a r h

theorem runNext_ok_emits (ctx : Ctx) (info : CInfo) (stops : List Stop)
    (i : CInfo) (a : List Act) (r : List Stop)
    (h : runNext ctx info stops = PrimOut.ok i a r) : emits a ≠ [] := by
  cases stops with
  | nil => exact absurd h (by rw [runNext]; exact PrimOut.noConfusion)
  | cons s rest =>
    rw [runNext] at h
    cases hsr : s.res <;> rw [hsr] at h <;> simp only [] at h
    · by_cases hl : s.level ≠ 0
      · rw [if_pos hl] at h
        exact PrimOut.noConfusion h
      · rw [if_neg hl] at h
        cases hp : s.pos <;> rw [hp] at h <;> simp only [] at h
        · exact PrimOut.noConfusion h
        · injection h with h1 h2 h3
          subst h2
          simp [emits_cons_emit]
    all_goals
      (injection h with h1 h2 h3
       subst h2
       simp [emits_cons_emit])

theorem runFinish_ok_char (ctx : Ctx) (info : CInfo) (stops : List Stop)
    (i : CInfo) (a : List Act) (r : List Stop)
    (h : runFinish ctx info stops = PrimOut.ok i a r) :
    ∃ s rest2, stops = s :: rest2 ∧
      ((emits a = [] ∧ (s.res = RunResult.timeout ∨
          (s.res = RunResult.success ∧ s.level ≠ 0))) ∨
       (emits a ≠ [] ∧ ¬(s.res = RunResult.timeout ∨
          (s.res = RunResult.success ∧ s.level ≠ 0)))) := by
  cases stops with
  | nil => exact absurd h (by rw [runFinish]; exact PrimOut.noConfusion)
  | cons s rest =>
    refine ⟨s, rest, rfl, ?_⟩
    rw [runFinish] at h
    by_cases hmid : info.current.lineLoc ≠ LineLoc.Middle
    · rw [if_pos hmid] at h
      exact absurd h (by exact PrimOut.noConfusion)
    · rw [if_neg hmid] at h
      cases hsr : s.res <;> rw [hsr] at h <;> simp only [] at h
      · by_cases hl : s.level = 0
        · rw [if_pos hl] at h
          cases hp : s.pos <;> rw [hp] at h <;> simp only [] at h
          · exact absurd h (by exact PrimOut.noConfusion)
          · injection h with h1 h2 h3
            subst h2
            refine Or.inr ⟨by simp [emits_cons_emit], ?_⟩
            rintro (hc | ⟨-, hc⟩)
            · exact RunResult.noConfusion hc
            · exact hc hl
        · rw [if_neg hl] at h
          injection h with h1 h2 h3
          subst h2
          exact Or.inl ⟨rfl, Or.inr ⟨rfl, hl⟩⟩
      · injection h with h1 h2 h3
        subst h2
        exact Or.inl ⟨rfl, Or.inl rfl⟩
      · injection h with h1 h2 h3
        subst h2
        refine Or.inr ⟨by simp [emits_cons_emit], ?_⟩
        rintro (hc | ⟨hc, -⟩) <;> exact RunResult.noConfusion hc
      · injection h with h1 h2 h3
        subst h2
        refine Or.inr ⟨by simp [emits_cons_emit], ?_⟩
        rintro (hc | ⟨hc, -⟩) <;> exact RunResult.noConfusion hc
      · injection h with h1 h2 h3
        subst h2
        refine Or.inr ⟨by simp [emits_cons_emit], ?_⟩
        rintro (hc | ⟨hc, -⟩) <;> exact RunResult.noConfusion hc

theorem runUntilAndNext_ok_emits (ctx : Ctx) (flOpt : Option FileLine) (info : CInfo)
    (stops : List Stop) (i : CInfo) (a : List Act) (r : List Stop)
    (h : runUntilAndNext ctx flOpt info stops = PrimOut.ok i a r) : emits a ≠ [] := by
  rw [runUntilAndNext] at h
  cases hrec : runUntil ctx flOpt info stops <;> rw [hrec] at h <;> simp only [] at h
  · rename_i i1 a1 r1
    have ha1 := runUntil_ok_emits ctx flOpt info stops i1 a1 r1 hrec
    cases hfl : flOpt <;> rw [hfl] at h <;> simp only [] at h
    · injection h with h1 h2 h3
      subst h2
      exact ha1
    · cases hrec2 : runNext ctx i1 r1 <;> rw [hrec2] at h <;> simp only [] at h
      · injection h with h1 h2 h3
        subst h2
        rw [emits_append]
        intro hc
        exact ha1 (List.append_eq_nil.1 hc).1
      · exact PrimOut.noConfusion h
      · exact PrimOut.noConfusion h
      · exact PrimOut.noConfusion h
  · exact PrimOut.noConfusion h
  · exact PrimOut.noConfusion h
  · exact PrimOut.noConfusion h

theorem poWrap_ret (threads : List (Option CInfo)) (tid : ℕ) (acc : List Act)
    (p : PrimOut) (st2 : List (Option CInfo)) (acts : List Act)
    (h : poWrap threads tid acc p = POut.ret st2 acts) :
    ∃ i a r, p = PrimOut.ok i a r ∧ acts = acc ++ a := by
  cases p with
  | ok i a r =>
    rw [poWrap] at h
    injection h with h1 h2
    exact ⟨i, a, r, rfl, h2.symm⟩
  | fatalT a => exact absurd h (by rw [poWrap]; exact POut.noConfusion)
  | crash a => exact absurd h (by rw [poWrap]; exact POut.noConfusion)
  | stuck => exact absurd h (by rw [poWrap]; exact POut.noConfusion)

theorem runUntilLoop_fatal_no_delete (ctx : Ctx) (info : CInfo) :
    ∀ (stops : List Stop) (a : List Act),
      runUntilLoop ctx info stops = PrimOut.fatalT a → Act.deleteBp ∉ a := by
  intro stops
  induction stops with
  | nil => intro a h; exact absurd h (by rw [runUntilLoop]; exact PrimOut.noConfusion)
  | cons s rest ih =>
    intro a h
    rw [runUntilLoop] at h
    cases hsr : s.res <;> rw [hsr] at h <;> simp only [] at h
    · cases hp : s.pos <;> rw [hp] at h <;> simp only [] at h <;>
        exact PrimOut.noConfusion h
    · injection h with h1
      subst h1
      simp
    · cases hrec : runUntilLoop ctx info rest <;> rw [hrec] at h <;> simp only [] at h
      · exact PrimOut.noConfusion h
      · rename_i a2
        injection h with h1
        subst h1
        intro hmem
        rcases List.mem_cons.1 hmem with h2 | h2
        · exact Act.noConfusion h2
        · exact ih a2 hrec h2
      · exact PrimOut.noConfusion h
      · exact PrimOut.noConfusion h
    · exact PrimOut.noConfusion h
    · exact PrimOut.noConfusion h

/-- C3 (amended): `run_until` with a non-none target deletes its temporary
breakpoint on every NORMAL exit path (hit, clone loops, thread exit,
debugger error) — but on the Timeout path the `raise` leaves `run_until`
before the deletion statement, so the breakpoint is NOT deleted there. -/
theorem c3_breakpoint_delete (ctx : Ctx) (info : CInfo) (stops : List Stop) :
    (∀ i a r, runUntilSome ctx info stops = PrimOut.ok i a r → Act.deleteBp ∈ a) ∧
    (∀ a, runUntilSome ctx info stops = PrimOut.fatalT a → Act.deleteBp ∉ a) := by
  constructor
  · intro i a r h
    rw [runUntilSome] at h
    cases hrec : runUntilLoop ctx info stops <;> rw [hrec] at h <;> simp only [] at h
    · injection h with h1 h2 h3
      subst h2
      simp
    · exact PrimOut.noConfusion h
    · exact PrimOut.noConfusion h
    · exact PrimOut.noConfusion h
  · intro a h
    rw [runUntilSome] at h
    cases hrec : runUntilLoop ctx info stops <;> rw [hrec] at h <;> simp only [] at h
    · exact PrimOut.noConfusion h
    · rename_i a2
      injection h with h1
      subst h1
      intro hmem
      rcases List.mem_cons.1 hmem with h2 | h2
      · exact Act.noConfusion h2
      · exact runUntilLoop_fatal_no_delete ctx info stops a2 hrec h2
    · exact PrimOut.noConfusion h
    · exact PrimOut.noConfusion h

/-- C3 (counterexample): a `run_until` whose first `continue` times out
raises the fatal error with only the breakpoint-creation action performed:
the temporary breakpoint is not deleted on that exit path, contradicting
the claim that every exit path deletes it. -/
theorem c3_cex :
    runUntilSome ctxC infoM [stopTimeout] = PrimOut.fatalT [Act.createBp] ∧
    Act.deleteBp ∉ ([Act.createBp] : List Act) := by decide

/-- C3 (witness): on a normal exit (thread exit) the deletion is reached. -/
theorem c3_witness :
    Act.deleteBp ∈ ([Act.createBp, Act.emit 0, Act.deleteBp] : List Act) :=
  (c3_breakpoint_delete ctxC infoM [stopExit]).1
    (moveTo infoM ⟨1, LineLoc.Middle, none⟩ false)
    [Act.createBp, Act.emit 0, Act.deleteBp] [] (by decide)

theorem zeroEmissionB_live (ctx : Ctx) (threads : List (Option CInfo)) (tpos : ThreadPos)
    (live sw : Bool) (stops : List Stop) (h : live = false) :
    zeroEmissionB ctx threads tpos live sw stops = true := by
  rw [zeroEmissionB.eq_def, if_pos h]

theorem zeroEmissionB_sw (ctx : Ctx) (threads : List (Option CInfo)) (tpos : ThreadPos)
    (live sw : Bool) (stops : List Stop) (hlive : ¬live = false) (h : sw = false) :
    zeroEmissionB ctx threads tpos live sw stops = true := by
  rw [zeroEmissionB.eq_def, if_neg hlive, if_pos h]

theorem zeroEmissionB_some (ctx : Ctx) (threads : List (Option CInfo)) (tpos : ThreadPos)
    (live sw : Bool) (stops : List Stop) (info : CInfo)
    (hget : threads.get? tpos.tid = some (some info)) (hlive : ¬live = false)
    (hsw : ¬sw = false) :
    zeroEmissionB ctx threads tpos live sw stops =
      (if info.current.lineLoc = LineLoc.Before ∧ tpos.lineLoc = LineLoc.Before then
        optFLeq (breakPosition ctx.positions ctx.srcdir tpos.fileLine)
            info.current.fileLine &&
          lastTargetEarlierB info.lastTarget tpos.fileLine
      else if info.current.lineLoc = LineLoc.Before ∧ tpos.lineLoc = LineLoc.Middle then
        optFLeq tpos.fileLine info.lastFinished
      else if info.current.lineLoc = LineLoc.Middle ∧ tpos.lineLoc = LineLoc.Middle ∧
          optFLeq (breakPosition ctx.positions ctx.srcdir tpos.fileLine)
            info.current.fileLine = true then
        match stops with
        | s :: _ => decide (s.res = RunResult.timeout) ||
            (decide (s.res = RunResult.success) && decide (s.level ≠ 0))
        | [] => false
      else false) := by
  rw [zeroEmissionB.eq_def, if_neg hlive, if_neg hsw, hget]

/-- C1 (amended): a completed `process_one` emits NO PC line exactly on the
dead-inferior and failed-switch early returns, the two no-op rows of the
state machine, and a `run_finish` that times out or lands below the top
frame; every other completed record emits at least one line (and possibly
several: one per Clone stop, plus both halves of until+next). -/
theorem c1_zero_emission (ctx : Ctx) (threads : List (Option CInfo)) (tpos : ThreadPos)
    (live sw : Bool) (stops : List Stop) (st2 : List (Option CInfo)) (acts : List Act)
    (h : processOne ctx threads tpos live sw stops = POut.ret st2 acts) :
    emits acts = [] ↔ zeroEmissionB ctx threads tpos live sw stops = true := by
  rw [processOne] at h
  cases hget : threads.get? tpos.tid with
  | none =>
    rw [hget] at h
    simp only [] at h
    exact POut.noConfusion h
  | some oinfo =>
    rw [hget] at h
    simp only [] at h
    by_cases hlive : live = false
    · rw [if_pos hlive] at h
      rw [zeroEmissionB_live ctx threads tpos live sw stops hlive]
      injection h with h1 h2
      subst h2
      simp [emits]
    · rw [if_neg hlive] at h
      by_cases hsw : sw = false
      · rw [if_pos hsw] at h
        rw [zeroEmissionB_sw ctx threads tpos live sw stops hlive hsw]
        have hacts : acts = [] := by
          cases hfl : tpos.fileLine <;> rw [hfl] at h <;> simp only [] at h
          · injection h with h1 h2
            exact h2.symm
          · cases oinfo with
            | none => exact POut.noConfusion h
            | some info =>
              simp only [] at h
              by_cases hifl : info.current.fileLine = none
              · rw [if_pos hifl] at h
                injection h with h1 h2
                exact h2.symm
              · rw [if_neg hifl] at h
                exact POut.noConfusion h
        subst hacts
        simp [emits]
      · rw [if_neg hsw] at h
        by_cases hAft : tpos.lineLoc = LineLoc.After
        · rw [if_pos hAft] at h
          exact POut.noConfusion h
        · rw [if_neg hAft] at h
          cases oinfo with
          | none => exact POut.noConfusion h
          | some info =>
            simp only [] at h
            rw [zeroEmissionB_some ctx threads tpos live sw stops info hget hlive hsw]
            by_cases hIAft : info.current.lineLoc = LineLoc.After
            · rw [if_pos hIAft] at h
              exact POut.noConfusion h
            · rw [if_neg hIAft] at h
              by_cases hB : info.current.lineLoc = LineLoc.Before
              · rw [if_pos hB] at h
                by_cases hTB : tpos.lineLoc = LineLoc.Before
                · rw [if_pos hTB] at h
                  rw [if_pos ⟨hB, hTB⟩]
                  by_cases hnoop : (optFLeq (breakPosition ctx.positions ctx.srcdir
                      tpos.fileLine) info.current.fileLine &&
                      lastTargetEarlierB info.lastTarget tpos.fileLine) = true
                  · rw [if_pos hnoop] at h
                    injection h with h1 h2
                    subst h2
                    simp [emits, hnoop]
                  · rw [if_neg hnoop] at h
                    cases hrec : runUntil ctx tpos.fileLine
                        { info with lastTarget := tpos.fileLine } stops <;>
                      rw [hrec] at h <;> simp only [] at h
                    · rename_i i2 a r
                      have ha := runUntil_ok_emits ctx tpos.fileLine _ stops i2 a r hrec
                      by_cases hmid : i2.current.lineLoc = LineLoc.Middle
                      · rw [if_pos hmid] at h
                        rw [poMiddle, if_pos hTB] at h
                        obtain ⟨i3, a3, r3, hp2, rfl⟩ := poWrap_ret _ _ _ _ _ _ h
                        refine iff_of_false ?_ hnoop
                        rw [emits_append]
                        intro hc
                        exact ha (List.append_eq_nil.1 hc).1
                      · rw [if_neg hmid] at h
                        injection h with h1 h2
                        subst h2
                        exact iff_of_false ha hnoop
                    · exact POut.noConfusion h
                    · exact POut.noConfusion h
                    · exact POut.noConfusion h
                · have hTM : tpos.lineLoc = LineLoc.Middle := by
                    cases hC : tpos.lineLoc
                    · exact absurd hC hTB
                    · rfl
                    · exact absurd hC hAft
                  rw [if_neg hTB] at h
                  rw [if_neg (fun hc => hTB hc.2), if_pos ⟨hB, hTM⟩]
                  by_cases hLF : optFLeq tpos.fileLine info.lastFinished = true
                  · rw [if_pos hLF] at h
                    injection h with h1 h2
                    subst h2
                    simp [emits, hLF]
                  · rw [if_neg hLF] at h
                    by_cases hcm : optFLeq (breakPosition ctx.positions ctx.srcdir
                        tpos.fileLine) info.current.fileLine = true
                    · rw [if_pos hcm] at h
                      obtain ⟨i3, a3, r3, hp2, rfl⟩ := poWrap_ret _ _ _ _ _ _ h
                      have ha := runNext_ok_emits ctx _ stops i3 acts r3 hp2
                      exact iff_of_false (by simpa using ha) hLF
                    · rw [if_neg hcm] at h
                      obtain ⟨i3, a3, r3, hp2, rfl⟩ := poWrap_ret _ _ _ _ _ _ h
                      have ha := runUntilAndNext_ok_emits ctx tpos.fileLine _ stops
                        i3 acts r3 hp2
                      exact iff_of_false (by simpa using ha) hLF
              · have hIM : info.current.lineLoc = LineLoc.Middle := by
                  cases hC : info.current.lineLoc
                  · exact absurd hC hB
                  · rfl
                  · exact absurd hC hIAft
                rw [if_neg hB, poMiddle] at h
                rw [if_neg (fun hc => hB hc.1), if_neg (fun hc => hB hc.1)]
                by_cases hTB : tpos.lineLoc = LineLoc.Before
                · rw [if_pos hTB] at h
                  rw [if_neg (by
                    rintro ⟨-, hc, -⟩
                    rw [hTB] at hc
                    exact LineLoc.noConfusion hc)]
                  obtain ⟨i3, a3, r3, hp2, rfl⟩ := poWrap_ret _ _ _ _ _ _ h
                  have ha := runUntil_ok_emits ctx tpos.fileLine _ stops i3 acts r3 hp2
                  exact iff_of_false (by simpa using ha) (by decide)
                · have hTM : tpos.lineLoc = LineLoc.Middle := by
                    cases hC : tpos.lineLoc
                    · exact absurd hC hTB
                    · rfl
                    · exact absurd hC hAft
                  rw [if_neg hTB] at h
                  by_cases hcm : optFLeq (breakPosition ctx.positions ctx.srcdir
                      tpos.fileLine) info.current.fileLine = true
                  · rw [if_pos hcm] at h
                    rw [if_pos ⟨hIM, hTM, hcm⟩]
                    obtain ⟨i3, a3, r3, hp2, rfl⟩ := poWrap_ret _ _ _ _ _ _ h
                    obtain ⟨s, rest2, rfl, hchar⟩ :=
                      runFinish_ok_char ctx _ stops i3 acts r3 hp2
                    simp only []
                    rcases hchar with ⟨he, hcond⟩ | ⟨he, hcond⟩
                    · constructor
                      · intro hdummy
                        rcases hcond with h1 | ⟨h1, h2⟩
                        · simp [h1]
                        · simp [h1, h2]
                      · intro hdummy
                        simpa using he
                    · constructor
                      · intro hc
                        exact absurd (by simpa using hc) he
                      · intro hc
                        exfalso
                        apply hcond
                        simpa [Bool.or_eq_true, Bool.and_eq_true,
                          decide_eq_true_eq] using hc
                  · rw [if_neg hcm] at h
                    rw [if_neg (fun hc => hcm hc.2.2)]
                    obtain ⟨i3, a3, r3, hp2, rfl⟩ := poWrap_ret _ _ _ _ _ _ h
                    have ha := runUntilAndNext_ok_emits ctx tpos.fileLine _ stops
                      i3 acts r3 hp2
                    exact iff_of_false (by simpa using ha) (by decide)

/-- C1 (counterexample): a record hitting the Before/Before forward-progress
no-op row completes `process_one` with ZERO PC-log lines, contradicting
"exactly one PC line per record". -/
theorem c1_cex :
    processOne ctxC threadsC tposC true true [] =
      POut.ret [none, some ⟨⟨1, LineLoc.Before, some flac3⟩, none, some flac3⟩] [] ∧
    emits [] = ([] : List ℤ) := by decide

/-- C1 (witness): the zero-emission characterization applied to that
concrete no-op record. -/
theorem c1_witness :
    emits [] = [] ↔ zeroEmissionB ctxC threadsC tposC true true [] = true :=
  c1_zero_emission ctxC threadsC tposC true true []
    [none, some ⟨⟨1, LineLoc.Before, some flac3⟩, none, some flac3⟩] [] (by decide)

/-! ## The Replayer thread table (C10) -/

/-- C10 (amended): the thread table keeps `threads[i].tid == i` with the
index-0 `None` placeholder, and `process_one` indexes it unguarded.  A
record whose tid exceeds the table crashes with an uncaught `IndexError`;
a tid-0 record with a non-none file line crashes with an uncaught
`AttributeError` once the liveness check passes — neither is the
InvalidLogRecord class — but a tid-0 record is handled without error when
the inferior is dead, or when its file line is none and the thread switch
fails (as `switch_thread(0)` always does). -/
theorem c10_thread_table (ctx : Ctx) (threads : List (Option CInfo)) (tpos : ThreadPos)
    (live sw : Bool) (stops : List Stop) (ll : LineLoc) (fl : Option FileLine)
    (hok : tableOk threads) (hrange : tpos.tid = 0 ∨ threads.length ≤ tpos.tid) :
    (threads.get? tpos.tid = some none ∨ threads.get? tpos.tid = none) ∧
    (threads.length ≤ tpos.tid →
      processOne ctx threads tpos live sw stops = POut.crash []) ∧
    (tpos.tid = 0 → live = true → tpos.lineLoc ≠ LineLoc.After → tpos.fileLine ≠ none →
      processOne ctx threads tpos live sw stops = POut.crash []) ∧
    (tpos.tid = 0 → (live = false ∨ (tpos.fileLine = none ∧ sw = false)) →
      processOne ctx threads tpos live sw stops = POut.ret threads []) ∧
    tableOk [none] ∧
    tableOk (addNewThread threads ll fl) := by
  have hget0 : tpos.tid = 0 → threads.get? tpos.tid = some none := by
    intro h0
    rw [h0]
    exact hok.1
  refine ⟨?_, ?_, ?_, ?_, ?_, ?_⟩
  · rcases hrange with h0 | hlen
    · exact Or.inl (hget0 h0)
    · exact Or.inr (List.get?_eq_none.2 hlen)
  · intro hlen
    rw [processOne, List.get?_eq_none.2 hlen]
  · intro h0 hlv hAft hfl
    rw [processOne, hget0 h0]
    simp only []
    rw [if_neg (by rw [hlv]; exact fun hc => Bool.noConfusion hc)]
    by_cases hsw : sw = false
    · rw [if_pos hsw]
      cases hflc : tpos.fileLine with
      | none => exact absurd hflc hfl
      | some f => rfl
    · rw [if_neg hsw, if_neg hAft]
  · intro h0 hcase
    rw [processOne, hget0 h0]
    simp only []
    rcases hcase with hlv | ⟨hfl, hsw⟩
    · rw [if_pos hlv]
    · by_cases hlv : live = false
      · rw [if_pos hlv]
      · rw [if_neg hlv, if_pos hsw, hfl]
  · constructor
    · rfl
    · intro i info h
      match i with
      | 0 => simp at h
      | n + 1 => simp at h
  · have hlen0 : 0 < threads.length := by
      rcases List.get?_eq_some.1 hok.1 with ⟨hl, -⟩
      exact hl
    constructor
    · rw [addNewThread, List.get?_append hlen0]
      exact hok.1
    · intro i info h
      rw [addNewThread] at h
      by_cases hi : i < threads.length
      · rw [List.get?_append hi] at h
        exact hok.2 i info h
      · have hge : threads.length ≤ i := by omega
        rw [List.get?_append_right hge] at h
        match hm : i - threads.length, h with
        | 0, h =>
          have h2 : (⟨⟨threads.length, ll, fl⟩, none, none⟩ : CInfo) = info := by
            simpa using h
          rw [← h2]
          show threads.length = i
          omega
        | m + 1, h => simp at h

/-- C10 (counterexample): a tid-0 record with no file line, processed while
the inferior is live and the (spec-modelled) `switch_thread(0)` fails,
returns cleanly — defined, non-crashing behavior, contradicting the claim
that no such record has any. -/
theorem c10_cex :
    processOne ctxC threadsC tpos0 true (switchThreadOk [1] 0) [] =
      POut.ret threadsC [] ∧
    switchThreadOk [1] 0 = false := by decide

theorem tableOkC : tableOk threadsC := by
  constructor
  · rfl
  · intro i info h
    match i with
    | 0 => simp [threadsC] at h
    | 1 =>
      have h2 : infoC = info := by simpa [threadsC] using h
      rw [← h2]
      rfl
    | n + 2 => simp [threadsC] at h

/-- C10 (witness): the amended theorem at concrete inputs — an
out-of-range tid crashes with the unguarded lookup, and a tid-0 record
with a file line crashes on the placeholder. -/
theorem c10_witness :
    processOne ctxC threadsC tpos5 true true [] = POut.crash [] ∧
    processOne ctxC threadsC tpos0f true true [] = POut.crash [] :=
  ⟨(c10_thread_table ctxC threadsC tpos5 true true [] LineLoc.Before none tableOkC
      (Or.inr (by decide))).2.1 (by decide),
   (c10_thread_table ctxC threadsC tpos0f true true [] LineLoc.Before none tableOkC
      (Or.inl rfl)).2.2.1 rfl rfl (by decide) (by decide)⟩

end GdbTrace
